import Mathlib

/-!
Verification of the cache-consistency and refresh-orchestration core of the
Buff163 price scraper (`backend_scraper_app.py`, `scrape_prices.py`).

The Python code is shallowly embedded:
* the persisted JSON object `item_overrides.json` becomes an association list
  `Cache := List (String × PriceRecord)` (Python `dict` semantics: assignment
  replaces the value in place for an existing key and appends a new key);
* ISO timestamps are abstracted by a caller-supplied parser
  `parse : String → Option ℤ` returning epoch seconds (modelling
  `datetime.fromisoformat` applied after the `'Z' → '+00:00'` replacement;
  `none` models the `ValueError`/`TypeError` branch), with `now : ℤ` the value
  of `datetime.now(timezone.utc)` at the call;
* Python floats are modelled as exact rationals `ℚ`, and `round(x, 2)` as
  banker's rounding on `ℚ`;
* file I/O becomes explicit state passing: a function receives the current
  on-disk mapping and returns the new on-disk mapping, and the advisory file
  lock is reflected by sequential composition of such functions;
* the two regular expressions of `scrape_buff_price` (phase detection and
  separator correction) are implemented character by character on
  `List Char`, with Python `\s` as the Unicode whitespace set, `\d` and
  case folding restricted to ASCII.
-/

/-- Python's `\s` whitespace class over `str` (Unicode whitespace), as code
points. -/
def pySpaceNats : List Nat :=
  [32, 9, 10, 11, 12, 13, 28, 29, 30, 31, 133, 160, 5760,
   8192, 8193, 8194, 8195, 8196, 8197, 8198, 8199, 8200, 8201, 8202,
   8232, 8233, 8239, 8287, 12288]

/-- Membership in Python's `\s` class. -/
def isPySpace (c : Char) : Bool := c.toNat ∈ pySpaceNats

/-- ASCII upper-case/lower-case pairs, used for `re.IGNORECASE` matching
(folding restricted to ASCII; the pattern literals are all ASCII). -/
def asciiCaseTable : List (Char × Char) :=
  [('A', 'a'), ('B', 'b'), ('C', 'c'), ('D', 'd'), ('E', 'e'), ('F', 'f'),
   ('G', 'g'), ('H', 'h'), ('I', 'i'), ('J', 'j'), ('K', 'k'), ('L', 'l'),
   ('M', 'm'), ('N', 'n'), ('O', 'o'), ('P', 'p'), ('Q', 'q'), ('R', 'r'),
   ('S', 's'), ('T', 't'), ('U', 'u'), ('V', 'v'), ('W', 'w'), ('X', 'x'),
   ('Y', 'y'), ('Z', 'z')]

/-- First-match traversal of a case table. -/
def lowerIn : List (Char × Char) → Char → Char
  | [], c => c
  | (u, v) :: t, c => if c = u then v else lowerIn t c

/-- Lower-case an ASCII letter, leave every other character unchanged. -/
def lowerAscii (c : Char) : Char := lowerIn asciiCaseTable c

/-- Python's `\d` restricted to ASCII digits (code points 48-57). -/
def isAsciiDigit (c : Char) : Bool := 48 ≤ c.toNat ∧ c.toNat ≤ 57

/-- A price-cache entry as stored in `item_overrides.json`:
`{"yuan_price": …, "usd_price": …, "timestamp": …}`.  `timestamp` is an
`Option` because the scheduled sweep reads it with `item_details.get`. -/
structure PriceRecord where
  yuan_price : ℚ
  usd_price : ℚ
  timestamp : Option String
deriving DecidableEq

/-- The persisted mapping of `item_overrides.json`. -/
abbrev Cache : Type := List (String × PriceRecord)

/-- First-match lookup, i.e. `d[k]` on a Python dict rendered as an
association list with distinct keys. -/
def lookupKV {β : Type} : List (String × β) → String → Option β
  | [], _ => none
  | (k', v) :: t, k => if k' = k then some v else lookupKV t k

/-- Python dict assignment `d[k] = v`: replace in place if the key exists,
append otherwise. -/
def insertKV {β : Type} : List (String × β) → String → β → List (String × β)
  | [], k, v => [(k, v)]
  | (k', v') :: t, k, v =>
    if k' = k then (k', v) :: t else (k', v') :: insertKV t k v

/-- `STALE_THRESHOLD_DAYS = 7`. -/
def STALE_THRESHOLD_DAYS : ℚ := 7

/-- `YUAN_TO_USD_RATE = 0.13937312`. -/
def YUAN_TO_USD_RATE : ℚ := 13937312 / 100000000

/-- `MAX_SCRAPE_RETRIES = 3`. -/
def MAX_SCRAPE_RETRIES : Nat := 3

/-- `RETRY_DELAY_SECONDS = 5`. -/
def RETRY_DELAY_SECONDS : Nat := 5

/-- `is_stale` of `backend_scraper_app.py` (lines 82-100).  An absent or
falsy (empty) timestamp is stale; a timestamp the parser rejects is stale
(the `except (ValueError, TypeError)` branch); otherwise the source compares
`age_seconds / (24 * 3600) > STALE_THRESHOLD_DAYS`, which by
`age_days_gt_iff` is the comparison used here. -/
def is_stale (parse : String → Option ℤ) (now : ℤ) (timestamp_str : Option String) : Bool :=
  match timestamp_str with
  | none => true
  | some s =>
    if s = "" then true
    else
      match parse s with
      | none => true
      | some t => decide ((now - t : ℤ) > 604800)

/-- `is_stale` of `scrape_prices.py` (lines 37-44).  An absent or empty
timestamp is stale, but `datetime.fromisoformat` is called with no exception
handler, so an unparseable timestamp raises (`Except.error`).  A parsed
timestamp is stale iff the age exceeds `timedelta(days=7)`. -/
def is_stale_script (parse : String → Option ℤ) (now : ℤ) (timestamp_str : Option String) :
    Except Unit Bool :=
  match timestamp_str with
  | none => Except.ok true
  | some s =>
    if s = "" then Except.ok true
    else
      match parse s with
      | none => Except.error ()
      | some t => Except.ok (decide ((now - t : ℤ) > 7 * 24 * 3600))

/-- Result of `save_data_atomic`: the returned boolean, the content of the
live `item_overrides.json` after the call, and whether the temporary file is
left behind. -/
structure SaveResult where
  ok : Bool
  live : Cache
  tempLeft : Bool
deriving DecidableEq

/-- `save_data_atomic` of `backend_scraper_app.py` (lines 102-145).  The full
mapping `data` is staged to a fresh temporary file in the cache's directory,
flushed and fsynced, then read back; `validated` is the mapping obtained by
re-reading the staged file (the JSON round trip).  If its cardinality differs
from `data`'s, a `ValueError` is raised, the `except` handler unlinks the
temporary file, and the function returns `False` with the live file
untouched; otherwise `os.replace` atomically promotes the temporary file, so
the live file's content becomes the staged (validated) mapping. -/
def save_data_atomic (live : Cache) (data : Cache) (validated : Cache) : SaveResult :=
  if validated.length ≠ data.length then
    { ok := false, live := live, tempLeft := false }
  else
    { ok := true, live := validated, tempLeft := false }

/-- `update_item_data_safely` of `backend_scraper_app.py` (lines 147-177).
The whole body runs while holding `FileLock(JSON_LOCK_FILE_PATH)`: it
re-reads the latest on-disk mapping (`disk`), replaces the single entry
`item_key`, stamping `datetime.now(timezone.utc).isoformat()` (`now_str`),
and persists the result with `save_data_atomic`.  The JSON round trip of the
staged file is faithful here, so `validated = data`. -/
def update_item_data_safely (disk : Cache) (item_key : String)
    (yuan_price usd_price : ℚ) (now_str : String) : Bool × Cache :=
  let existing_data := disk
  let new_data := insertKV existing_data item_key
    { yuan_price := yuan_price, usd_price := usd_price, timestamp := some now_str }
  let res := save_data_atomic disk new_data new_data
  (res.ok, res.live)

/-- Case-insensitive literal matching: `matchCI pat l = some (m, r)` when the
first `pat.length` characters of `l` fold (via `lowerAscii`) onto `pat`;
`m` keeps the original characters and `r` is the remainder. -/
def matchCI : List Char → List Char → Option (List Char × List Char)
  | [], l => some ([], l)
  | _ :: _, [] => none
  | p :: ps, c :: cs =>
    if lowerAscii c = p then
      match matchCI ps cs with
      | some (m, r) => some (c :: m, r)
      | none => none
    else none

/-- The phase-family words of the correction pattern
`(?:Doppler|Gamma Doppler)`, lower-cased. -/
def dopplerW : List Char := "doppler".data

/-- Lower-cased `"gamma doppler"`. -/
def gammaW : List Char := "gamma doppler".data

/-- `(?:Doppler|Gamma Doppler)` — the alternatives start with distinct
letters, so untried-alternative backtracking cannot change the outcome. -/
def dopplerAlt (l : List Char) : Option (List Char × List Char) :=
  match matchCI dopplerW l with
  | some r => some r
  | none => matchCI gammaW l

/-- Lower-cased `"phase"`. -/
def phaseW : List Char := "phase".data

/-- `Phase\s*\d`: the literal word, a greedy whitespace run, one digit.
`\s` and `\d` are disjoint, so greediness is unambiguous. -/
def phaseNum (l : List Char) : Option (List Char × List Char) :=
  match matchCI phaseW l with
  | some (m, r) =>
    match r.dropWhile isPySpace with
    | d :: rest =>
      if isAsciiDigit d then some (m ++ r.takeWhile isPySpace ++ [d], rest) else none
    | [] => none
  | none => none

/-- Phase token of the separator-correction pattern:
`(Phase\s*\d|Ruby|Sapphire|Emerald|Black Pearl)` — note that this list
includes `Emerald`.  The alternatives start with distinct letters. -/
def corrTok (l : List Char) : Option (List Char × List Char) :=
  match phaseNum l with
  | some r => some r
  | none =>
    match matchCI "ruby".data l with
    | some r => some r
    | none =>
      match matchCI "sapphire".data l with
      | some r => some r
      | none =>
        match matchCI "emerald".data l with
        | some r => some r
        | none => matchCI "black pearl".data l

/-- One attempt of the separator-correction pattern
`(\s(?:Doppler|Gamma Doppler))\s(Phase\s*\d|Ruby|Sapphire|Emerald|Black Pearl)`
anchored at the head of `l` (case-insensitive).  On success returns
`(group1, group2, rest)`, where `group1` is the leading whitespace character
plus the phase-family word, the single `\s` between the groups is dropped,
and `rest` is everything after the match. -/
def matchAt (l : List Char) : Option (List Char × List Char × List Char) :=
  match l with
  | [] => none
  | c :: cs =>
    if isPySpace c then
      match dopplerAlt cs with
      | some (w, r) =>
        match r with
        | s :: r2 =>
          if isPySpace s then
            match corrTok r2 with
            | some (g2, rest) => some (c :: w, g2, rest)
            | none => none
          else none
        | [] => none
      | none => none
    else none

/-- `re.sub` scanning for the separator-correction pattern with replacement
`\1 - \2`: try a match at each position left to right; on a match emit
`group1 ++ " - " ++ group2` and resume after the match, otherwise copy one
character.  `fuel` bounds the recursion; `fuel = l.length` always
suffices. -/
def subAux : Nat → List Char → List Char
  | 0, l => l
  | _ + 1, [] => []
  | f + 1, c :: cs =>
    match matchAt (c :: cs) with
    | some (g1, g2, rest) => g1 ++ (' ' :: '-' :: ' ' :: []) ++ g2 ++ subAux f rest
    | none => c :: subAux f cs

/-- The separator correction applied by `scrape_buff_price` (line 199) and by
the `/scrape-prices` endpoint (line 350):
`re.sub(r'(\s(?:Doppler|Gamma Doppler))\s(Phase\s*\d|Ruby|Sapphire|Emerald|Black Pearl)', r'\1 - \2', name, flags=re.IGNORECASE)`. -/
def correctSeparator (s : String) : String :=
  String.mk (subAux s.data.length s.data)

/-- Phase token of the phase-detection pattern:
`(Phase\s*\d|Ruby|Sapphire|Black Pearl)` — unlike `corrTok` this list does
NOT include `Emerald`. -/
def detTok (l : List Char) : Option (List Char × List Char) :=
  match phaseNum l with
  | some r => some r
  | none =>
    match matchCI "ruby".data l with
    | some r => some r
    | none =>
      match matchCI "sapphire".data l with
      | some r => some r
      | none => matchCI "black pearl".data l

/-- The suffix `\s*-\s*(Phase\s*\d|Ruby|Sapphire|Black Pearl)$` of the
phase-detection pattern, which must consume `l` entirely; returns the token
text (`group(2)`).  Each greedy `\s*` is followed by a non-whitespace
requirement, so greediness is unambiguous; `$` is modelled as end of string
(Python's `$` would also match before a single trailing newline — no claim
involves trailing newlines). -/
def sepTokEnd (l : List Char) : Option (List Char) :=
  match l.dropWhile isPySpace with
  | '-' :: l2 =>
    match detTok (l2.dropWhile isPySpace) with
    | some (tok, rest) => if rest = [] then some tok else none
    | none => none
  | _ => none

/-- Python `str.strip()`: remove leading and trailing whitespace. -/
def pyStrip (l : List Char) : List Char :=
  ((l.dropWhile isPySpace).reverse.dropWhile isPySpace).reverse

/-- One candidate split for the phase-detection pattern
`^(.*)\s*-\s*(…)$`: `group(1) = l.take j` (which, being `.*`, may not
contain a newline) and the rest of the pattern must consume `l.drop j`
entirely.  Returns `(group(1).strip(), group(2))` as the code uses them
(`phase_match.group(1).strip()`; `group(2)` never carries outer whitespace,
so its `.strip()` is the identity). -/
def tryAt (l : List Char) (j : Nat) : Option (List Char × List Char) :=
  if (l.take j).contains '\n' then none
  else
    match sepTokEnd (l.drop j) with
    | some tok => some (pyStrip (l.take j), tok)
    | none => none

/-- Try splits `j, j-1, …, 0`: the greedy `(.*)` takes the largest `j` whose
remainder matches. -/
def detectAux (l : List Char) : Nat → Option (List Char × List Char)
  | 0 => tryAt l 0
  | j + 1 =>
    match tryAt l (j + 1) with
    | some r => some r
    | none => detectAux l j

/-- The phase-detection regex of `scrape_buff_price` (line 190):
`re.search(r'^(.*)\s*-\s*(Phase\s*\d|Ruby|Sapphire|Black Pearl)$', name, re.IGNORECASE)`
(with `^…$`, `re.search` can only match at position 0).  Returns
`(base_item_name, phase_name)` on success. -/
def phaseDetect (l : List Char) : Option (List Char × List Char) :=
  detectAux l l.length

/-- String-level phase detection. -/
def phaseDetectStr (s : String) : Option (String × String) :=
  match phaseDetect s.data with
  | some (b, t) => some (String.mk b, String.mk t)
  | none => none

/-- Python's `round(x, 2)` (round-half-to-even) on exact rationals. -/
def pyRound2 (x : ℚ) : ℚ :=
  let y := x * 100
  let f : ℤ := ⌊y⌋
  let r := y - f
  let n : ℤ :=
    if r > 1 / 2 then f + 1 else if r < 1 / 2 then f else if Even f then f else f + 1
  (n : ℚ) / 100

/-- One entry of `marketids.json`: the optional `"buff"` market identifier and
the optional `"buff_phase"` mapping from phase label to tag id. -/
structure MarketEntry where
  buff : Option Nat
  buff_phase : Option (List (String × Nat))
deriving DecidableEq

/-- Outcome of one attempt of the fetch loop of `scrape_buff_price`:
the page yielded a parseable price (`ok`), navigation or the selector wait
raised (`exn` — timeout, navigation failure), or the page loaded but the
price text did not contain a number (`noparse` — the non-raising
"could not parse price" / "element not found" branches). -/
inductive AttemptOutcome
  | ok (yuan : ℚ)
  | exn
  | noparse
deriving DecidableEq

/-- Events of the fetch loop: an attempt with its 0-based index, or a
`time.sleep` of the given number of seconds. -/
inductive SEv
  | att (i : Nat)
  | slp (n : Nat)
deriving DecidableEq

/-- The retry loop of `scrape_buff_price` (backend, lines 229-263):
`for attempt in range(MAX_SCRAPE_RETRIES)`.  A successful attempt returns
`(yuan_price, round(yuan_price * YUAN_TO_USD_RATE, 2))`; an attempt that
raises sleeps `RETRY_DELAY_SECONDS` unless it was the last attempt; an
attempt that loads the page but cannot extract a number falls through to the
next attempt with no sleep (the `time.sleep` sits only in the `except`
handler).  `i` is the current attempt index, `r` the remaining attempts. -/
def runAttempts (fetch : Nat → AttemptOutcome) : Nat → Nat → Option (ℚ × ℚ) × List SEv
  | _, 0 => (none, [])
  | i, r + 1 =>
    match fetch i with
    | AttemptOutcome.ok y =>
      (some (y, pyRound2 (y * YUAN_TO_USD_RATE)), [SEv.att i])
    | AttemptOutcome.noparse =>
      let res := runAttempts fetch (i + 1) r
      (res.1, SEv.att i :: res.2)
    | AttemptOutcome.exn =>
      let res := runAttempts fetch (i + 1) r
      (res.1, SEv.att i :: ((if r ≠ 0 then [SEv.slp RETRY_DELAY_SECONDS] else []) ++ res.2))

/-- The base name before the separator correction: `group(1).strip()` when
the phase-detection regex matched, otherwise the whole name (line 186 and
lines 193-194). -/
def base_before_correction (item_name_with_phase : String) : List Char :=
  match phaseDetect item_name_with_phase.data with
  | some (b, _) => b
  | none => item_name_with_phase.data

/-- The base name used for the market-id lookup: the phase-split base (or the
whole name when no phase matched) after the separator correction of
line 199. -/
def corrected_base (item_name_with_phase : String) : String :=
  String.mk (subAux (base_before_correction item_name_with_phase).length
    (base_before_correction item_name_with_phase))

/-- The decline test of lines 216-222: a phase was detected
(`phase_match`), the entry has `"buff_phase"`, and the detected phase name
is one of its keys. -/
def phase_declined (item_name_with_phase : String) (item_data : MarketEntry) : Bool :=
  match phaseDetect item_name_with_phase.data, item_data.buff_phase with
  | some (_, phase_name), some tags => (lookupKV tags (String.mk phase_name)).isSome
  | _, _ => false

/-- `scrape_buff_price` of `backend_scraper_app.py` (lines 180-263).
Phase detection (line 190), separator correction of the base name (line 199),
market-id lookup (line 204), `"buff"` id check (line 210), the
phased-item decline (lines 216-222: only when a phase was detected, the entry
has `"buff_phase"`, and the detected phase name is one of its keys), then the
fetch loop.  All failure paths return `(None, None)`; the event list records
which fetch attempts and sleeps happened (empty ⇔ the Fetcher was never
invoked). -/
def scrape_buff_price (market_ids : List (String × MarketEntry))
    (fetch : Nat → AttemptOutcome) (item_name_with_phase : String) :
    Option (ℚ × ℚ) × List SEv :=
  match lookupKV market_ids (corrected_base item_name_with_phase) with
  | none => (none, [])
  | some item_data =>
    match item_data.buff with
    | none => (none, [])
    | some _ =>
      if phase_declined item_name_with_phase item_data then (none, [])
      else runAttempts fetch 0 MAX_SCRAPE_RETRIES

/-- Outcome kind of one item of a batch. -/
inductive OpKind
  | hit
  | scrapedOk
  | scrapeFail
deriving DecidableEq

/-- Batch-level events: one per-item operation, or a `time.sleep`. -/
inductive Ev
  | op (k : String) (kind : OpKind)
  | sleep (n : Nat)
deriving DecidableEq

/-- The collaborators of a refresh driver: the market table, the Fetcher
(per corrected key and attempt index), the timestamp parser and current
instant, and the static item list `items_to_scrape.txt`. -/
structure ScrapeEnv where
  market : List (String × MarketEntry)
  fetch : String → Nat → AttemptOutcome
  parse : String → Option ℤ
  now : ℤ
  nowStr : String
  items_file : List String

/-- One iteration of the `/scrape-prices` endpoint loop
(`backend_scraper_app.py` lines 348-392): correct the raw key (line 350),
re-load the cache and decide `should_scrape` (lines 354-368: fresh existing
data with a truthy, non-stale timestamp is served from cache), scrape and
persist on success, and sleep 2 seconds only `if should_scrape`
(lines 391-392). -/
def processItem (env : ScrapeEnv) (cache : Cache) (item_key_raw : String) :
    Cache × List Ev :=
  let item_key := correctSeparator item_key_raw
  let should_scrape :=
    match lookupKV cache item_key with
    | none => true
    | some r =>
      match r.timestamp with
      | none => true
      | some ts =>
        if ts ≠ "" ∧ is_stale env.parse env.now (some ts) = false then false else true
  if should_scrape then
    match (scrape_buff_price env.market (env.fetch item_key) item_key).1 with
    | some (y, u) =>
      ((update_item_data_safely cache item_key y u env.nowStr).2,
        [Ev.op item_key OpKind.scrapedOk, Ev.sleep 2])
    | none => (cache, [Ev.op item_key OpKind.scrapeFail, Ev.sleep 2])
  else (cache, [Ev.op item_key OpKind.hit])

/-- The endpoint loop over its item list, threading the persisted cache. -/
def endpointBatch (env : ScrapeEnv) : Cache → List String → Cache × List Ev
  | cache, [] => (cache, [])
  | cache, raw :: rest =>
    let step := processItem env cache raw
    let batch := endpointBatch env step.1 rest
    (batch.1, step.2 ++ batch.2)

/-- The stale-key enumeration of `perform_scheduled_price_update`
(lines 281-285): every key of the persisted mapping whose timestamp
(`item_details.get("timestamp")`) is stale. -/
def stale_items_to_scrape (parse : String → Option ℤ) (now : ℤ)
    (existing_data : Cache) : List String :=
  (existing_data.filter fun kv => is_stale parse now kv.2.timestamp).map Prod.fst

/-- One iteration of the scheduled-sweep loop (lines 297-312): scrape the key
(no endpoint-level correction — the sweep passes the cache key as is),
persist on success, and sleep 2 seconds unconditionally (line 312). -/
def sweepItem (env : ScrapeEnv) (cache : Cache) (item_key : String) :
    Cache × List Ev :=
  match (scrape_buff_price env.market (env.fetch item_key) item_key).1 with
  | some (y, u) =>
    ((update_item_data_safely cache item_key y u env.nowStr).2,
      [Ev.op item_key OpKind.scrapedOk, Ev.sleep 2])
  | none => (cache, [Ev.op item_key OpKind.scrapeFail, Ev.sleep 2])

/-- The scheduled-sweep loop over a key list, threading the persisted
cache. -/
def sweepBatch (env : ScrapeEnv) : Cache → List String → Cache × List Ev
  | cache, [] => (cache, [])
  | cache, k :: rest =>
    let step := sweepItem env cache k
    let batch := sweepBatch env step.1 rest
    (batch.1, step.2 ++ batch.2)

/-- `perform_scheduled_price_update` of `backend_scraper_app.py`
(lines 266-316): enumerate the stale keys of the persisted mapping and sweep
them.  The static item list (`items_to_scrape.txt`, `env.items_file`) is
never read. -/
def perform_scheduled_price_update (env : ScrapeEnv) (disk : Cache) :
    Cache × List Ev :=
  sweepBatch env disk (stale_items_to_scrape env.parse env.now disk)

/-- Checks the claim's reading of pacing: no two per-item operations may be
adjacent without an intervening sleep. -/
def noAdjacentOps : List Ev → Bool
  | Ev.op _ _ :: Ev.op _ _ :: _ => false
  | _ :: rest => noAdjacentOps rest
  | [] => true

/-- Every per-item operation is immediately followed by a 2-second sleep. -/
def delayAfterEveryOp : List Ev → Bool
  | [] => true
  | Ev.op _ _ :: Ev.sleep 2 :: rest => delayAfterEveryOp rest
  | Ev.op _ _ :: _ => false
  | Ev.sleep _ :: rest => delayAfterEveryOp rest

/-- A 2-second sleep follows an operation iff that operation attempted a
scrape; an operation served from cache is followed by no sleep. -/
def delayIffScraped : List Ev → Bool
  | [] => true
  | Ev.op _ OpKind.hit :: Ev.sleep _ :: _ => false
  | Ev.op _ OpKind.hit :: rest => delayIffScraped rest
  | Ev.op _ _ :: Ev.sleep 2 :: rest => delayIffScraped rest
  | Ev.op _ _ :: _ => false
  | Ev.sleep _ :: rest => delayIffScraped rest

/-- Shape of a phase-family word matched case-insensitively. -/
def WordShape (w : List Char) : Prop :=
  w.map lowerAscii = dopplerW ∨ w.map lowerAscii = gammaW

/-- Shape of a matched phase token of the correction pattern. -/
def TokShape (g : List Char) : Prop :=
  (∃ m sp d, g = m ++ sp ++ [d] ∧ m.map lowerAscii = phaseW ∧
    (∀ c ∈ sp, isPySpace c = true) ∧ isAsciiDigit d = true) ∨
  g.map lowerAscii = "ruby".data ∨ g.map lowerAscii = "sapphire".data ∨
  g.map lowerAscii = "emerald".data ∨ g.map lowerAscii = "black pearl".data

/-- The continuation of a correction-pattern match after its leading
whitespace character: a phase-family word, one whitespace, a phase token. -/
def chainB (l : List Char) : Bool :=
  match dopplerAlt l with
  | some (_, s :: r2) => isPySpace s && (corrTok r2).isSome
  | _ => false

/-- After a greedy whitespace run, the head is an ASCII digit: the
`\s*\d` tail of `Phase\s*\d`. -/
def spDigit (l : List Char) : Bool :=
  match l.dropWhile isPySpace with
  | d :: _ => isAsciiDigit d
  | [] => false

/-- No position of `l` starts a correction-pattern match. -/
def noMatchB : List Char → Bool
  | [] => true
  | c :: cs => (matchAt (c :: cs)).isNone && noMatchB cs

/-- No position inside the prefix `a` starts a match of `a ++ t`. -/
def noMatchBA : List Char → List Char → Bool
  | [], _ => true
  | c :: cs, t => (matchAt (c :: (cs ++ t))).isNone && noMatchBA cs t

/-- Shape of a matched token of the phase-detection pattern
`(Phase\s*\d|Ruby|Sapphire|Black Pearl)` — no `Emerald` alternative. -/
def DetShape (g : List Char) : Prop :=
  (∃ m sp d, g = m ++ sp ++ [d] ∧ m.map lowerAscii = phaseW ∧
    (∀ c ∈ sp, isPySpace c = true) ∧ isAsciiDigit d = true) ∨
  g.map lowerAscii = "ruby".data ∨ g.map lowerAscii = "sapphire".data ∨
  g.map lowerAscii = "black pearl".data

/-- `" Doppler Emerald"` lower-cased and reversed, minus its leading `'d'`. -/
def tailDE : List Char :=
  ['l', 'a', 'r', 'e', 'm', 'e', ' ', 'r', 'e', 'l', 'p', 'p', 'o', 'd', ' ']

/-- The source's comparison `age_seconds / (24 * 3600) > STALE_THRESHOLD_DAYS`
(carried out on exact rationals) holds iff the age exceeds 604800 seconds;
`is_stale` below uses the right-hand side so that it evaluates by kernel
reduction (`Rat` division is irreducible). -/
theorem age_days_gt_iff (age_seconds : ℤ) :
    ((age_seconds : ℚ) / (24 * 3600) > STALE_THRESHOLD_DAYS) ↔ age_seconds > 604800 := by
  rw [STALE_THRESHOLD_DAYS, gt_iff_lt, lt_div_iff₀ (by norm_num : (0 : ℚ) < 24 * 3600)]
  constructor
  · intro h
    have h' : (604800 : ℚ) < (age_seconds : ℚ) := by linarith
    exact_mod_cast h'
  · intro h
    have h' : (604800 : ℚ) < (age_seconds : ℚ) := by exact_mod_cast h
    linarith

theorem lookupKV_insertKV_self {β : Type} (m : List (String × β)) (k : String) (v : β) :
    lookupKV (insertKV m k v) k = some v := by
  induction m with
  | nil => simp [insertKV, lookupKV]
  | cons h t ih =>
    obtain ⟨k', v'⟩ := h
    by_cases hk : k' = k
    · simp [insertKV, lookupKV, hk]
    · simp [insertKV, lookupKV, hk, ih]

theorem lookupKV_insertKV_ne {β : Type} (m : List (String × β)) (k k' : String) (v : β)
    (h : k' ≠ k) : lookupKV (insertKV m k v) k' = lookupKV m k' := by
  induction m with
  | nil =>
    simp only [insertKV, lookupKV]
    rw [if_neg (fun hk : k = k' => h hk.symm)]
  | cons p t ih =>
    obtain ⟨k₀, v₀⟩ := p
    by_cases hk : k₀ = k
    · subst hk
      simp only [insertKV, if_pos rfl, lookupKV]
      rw [if_neg (fun hk' => h hk'.symm), if_neg (fun hk' => h hk'.symm)]
    · simp [insertKV, lookupKV, hk, ih]

/-- C1.  A lock-guarded update (`update_item_data_safely`) writes the mapping
it just re-read with only the entry for its key replaced (that key now maps
to the freshly stamped record and every other key is untouched), and
consequently two serialized updates for distinct keys `A` and `B` leave both
new records present in the persisted mapping afterwards: no lost update. -/
theorem update_item_data_safely_no_lost_update
    (disk : Cache) (A B : String) (ya ua yb ub : ℚ) (ta tb : String)
    (hAB : A ≠ B) :
    (∀ k y u t, (update_item_data_safely disk k y u t).2 =
        insertKV disk k { yuan_price := y, usd_price := u, timestamp := some t } ∧
      lookupKV (update_item_data_safely disk k y u t).2 k =
        some { yuan_price := y, usd_price := u, timestamp := some t } ∧
      ∀ k', k' ≠ k →
        lookupKV (update_item_data_safely disk k y u t).2 k' = lookupKV disk k') ∧
    (lookupKV (update_item_data_safely (update_item_data_safely disk A ya ua ta).2
        B yb ub tb).2 A =
      some { yuan_price := ya, usd_price := ua, timestamp := some ta } ∧
     lookupKV (update_item_data_safely (update_item_data_safely disk A ya ua ta).2
        B yb ub tb).2 B =
      some { yuan_price := yb, usd_price := ub, timestamp := some tb }) := by
  have hstep : ∀ (d : Cache) k y u t, (update_item_data_safely d k y u t).2 =
      insertKV d k { yuan_price := y, usd_price := u, timestamp := some t } := by
    intro d k y u t
    simp [update_item_data_safely, save_data_atomic]
  refine ⟨fun k y u t => ⟨hstep disk k y u t, ?_, fun k' hk' => ?_⟩, ?_, ?_⟩
  · rw [hstep]; exact lookupKV_insertKV_self disk k _
  · rw [hstep]; exact lookupKV_insertKV_ne disk k k' _ hk'
  · rw [hstep, hstep]
    rw [lookupKV_insertKV_ne _ B A _ hAB]
    exact lookupKV_insertKV_self disk A _
  · rw [hstep, hstep]
    exact lookupKV_insertKV_self _ B _

/-- Witness for C1 at a concrete pair of distinct keys. -/
theorem update_item_data_safely_no_lost_update_witness :
    lookupKV (update_item_data_safely (update_item_data_safely [] "A" 1 2 "t1").2
        "B" 3 4 "t2").2 "A" =
      some { yuan_price := 1, usd_price := 2, timestamp := some "t1" } ∧
    lookupKV (update_item_data_safely (update_item_data_safely [] "A" 1 2 "t1").2
        "B" 3 4 "t2").2 "B" =
      some { yuan_price := 3, usd_price := 4, timestamp := some "t2" } :=
  (update_item_data_safely_no_lost_update [] "A" "B" 1 2 3 4 "t1" "t2"
    (by decide)).2

/-- C2.  Whenever the mapping re-read from the staged file has a different
cardinality from the intended write, `save_data_atomic` reports failure
(`False`, the spec's `CacheWriteFailed`), the temporary file is unlinked
rather than promoted, and the live cache file's content is exactly its
pre-call content. -/
theorem save_data_atomic_mismatch (live data validated : Cache)
    (h : validated.length ≠ data.length) :
    save_data_atomic live data validated =
      { ok := false, live := live, tempLeft := false } := by
  simp [save_data_atomic, h]

/-- Witness for C2: the §8 scenario — a write of 10 entries whose re-read
reports 9 fails and leaves the pre-call single-entry file intact. -/
theorem save_data_atomic_mismatch_witness :
    save_data_atomic
      [("old", { yuan_price := 1, usd_price := 1, timestamp := some "t" })]
      ((List.range 10).map fun i =>
        (toString i, { yuan_price := 1, usd_price := 1, timestamp := some "t" }))
      ((List.range 9).map fun i =>
        (toString i, { yuan_price := 1, usd_price := 1, timestamp := some "t" })) =
      { ok := false,
        live := [("old", { yuan_price := 1, usd_price := 1, timestamp := some "t" })],
        tempLeft := false } :=
  save_data_atomic_mismatch _ _ _ (by decide)

/-- C3, counterexample.  The claim asserts `isStale` returns `true` for an
unparseable timestamp, citing both implementations; but `is_stale` of
`scrape_prices.py` calls `datetime.fromisoformat` with no exception handler,
so on an unparseable non-empty timestamp it raises instead of returning
`true`. -/
theorem is_stale_script_unparseable_raises :
    is_stale_script (fun _ => none) 0 (some "not-a-timestamp") = Except.error () ∧
    ∀ b : Bool, is_stale_script (fun _ => none) 0 (some "not-a-timestamp") ≠ Except.ok b := by
  constructor
  · rfl
  · intro b h
    cases h

/-- C3, amended.  `is_stale` of `backend_scraper_app.py` returns `true` for a
missing, empty, or unparseable timestamp and otherwise returns `true` iff
`now - timestamp` exceeds the 7-day threshold (604800 seconds); `is_stale` of
`scrape_prices.py` agrees on missing/empty and parsed timestamps but raises
on an unparseable one.  Both are pure functions of `(timestamp, now)`. -/
theorem is_stale_characterization (parse : String → Option ℤ) (now : ℤ) :
    (is_stale parse now none = true ∧ is_stale parse now (some "") = true ∧
      is_stale_script parse now none = Except.ok true ∧
      is_stale_script parse now (some "") = Except.ok true) ∧
    (∀ s, s ≠ "" → parse s = none →
      is_stale parse now (some s) = true ∧
      is_stale_script parse now (some s) = Except.error ()) ∧
    (∀ s t, s ≠ "" → parse s = some t →
      (is_stale parse now (some s) = true ↔
        ((now - t : ℤ) : ℚ) / (24 * 3600) > STALE_THRESHOLD_DAYS) ∧
      is_stale_script parse now (some s) = Except.ok (decide (now - t > 7 * 24 * 3600))) := by
  refine ⟨⟨rfl, by simp [is_stale], by simp [is_stale_script], by simp [is_stale_script]⟩,
    fun s hs hp => ⟨by simp [is_stale, hs, hp], by simp [is_stale_script, hs, hp]⟩,
    fun s t hs hp => ⟨?_, by simp [is_stale_script, hs, hp]⟩⟩
  simp only [is_stale, hs, hp, if_false, decide_eq_true_iff]
  exact (age_days_gt_iff (now - t)).symm

/-- Witness for C3's amended theorem at a concrete parser, instants and
strings: a timestamp 604801 seconds old is stale, one 604800 seconds old is
not. -/
theorem is_stale_characterization_witness :
    is_stale (fun s => if s = "old" then some 0 else none) 604801 (some "old") = true ∧
    is_stale (fun s => if s = "fresh" then some 1 else none) 604801 (some "fresh") = false := by
  have h1 := ((is_stale_characterization (fun s => if s = "old" then some 0 else none)
    604801).2.2 "old" 0 (by decide) (by simp)).1
  have h2 := ((is_stale_characterization (fun s => if s = "fresh" then some 1 else none)
    604801).2.2 "fresh" 1 (by decide) (by simp)).1
  constructor
  · rw [h1, age_days_gt_iff]
    decide
  · rw [← Bool.not_eq_true, h2, age_days_gt_iff]
    decide

theorem correctSeparator_knife_doppler :
    correctSeparator "Knife Doppler Phase 2" = "Knife Doppler - Phase 2" := by decide

theorem phaseDetect_examples :
    phaseDetectStr "AK-47 | Redline - Phase 2" = some ("AK-47 | Redline", "Phase 2") ∧
    phaseDetectStr "AK-47 | Redline" = none ∧
    phaseDetectStr "X - Ruby" = some ("X", "Ruby") ∧
    phaseDetectStr "X - Emerald" = none := by decide

theorem pyRound2_example : pyRound2 (500 * YUAN_TO_USD_RATE) = 6969 / 100 := by
  rw [pyRound2, YUAN_TO_USD_RATE]
  have hy : (500 : ℚ) * (13937312 / 100000000) * 100 = 6968656 / 1000 := by norm_num
  rw [hy]
  have hf : ⌊(6968656 / 1000 : ℚ)⌋ = 6968 := by
    rw [Int.floor_eq_iff]
    constructor
    · norm_num
    · norm_num
  rw [hf]
  rw [if_pos (by norm_num : (6968656 / 1000 : ℚ) - ((6968 : ℤ) : ℚ) > 1 / 2)]
  norm_num

theorem runAttempts_fst_some (fetch : Nat → AttemptOutcome) :
    ∀ r i y u, (runAttempts fetch i r).1 = some (y, u) →
      u = pyRound2 (y * YUAN_TO_USD_RATE) := by
  intro r
  induction r with
  | zero => intro i y u h; simp [runAttempts] at h
  | succ r ih =>
    intro i y u h
    cases hf : fetch i with
    | ok y0 =>
      rw [runAttempts, hf] at h
      simp only [Option.some.injEq, Prod.mk.injEq] at h
      obtain ⟨rfl, rfl⟩ := h
      rfl
    | exn =>
      rw [runAttempts, hf] at h
      exact ih (i + 1) y u h
    | noparse =>
      rw [runAttempts, hf] at h
      exact ih (i + 1) y u h

theorem runAttempts_all_fail (fetch : Nat → AttemptOutcome)
    (h0 : ∀ y, fetch 0 ≠ AttemptOutcome.ok y)
    (h1 : ∀ y, fetch 1 ≠ AttemptOutcome.ok y)
    (h2 : ∀ y, fetch 2 ≠ AttemptOutcome.ok y) :
    runAttempts fetch 0 MAX_SCRAPE_RETRIES =
      (none,
        [SEv.att 0] ++
          (if fetch 0 = AttemptOutcome.exn then [SEv.slp RETRY_DELAY_SECONDS] else []) ++
        [SEv.att 1] ++
          (if fetch 1 = AttemptOutcome.exn then [SEv.slp RETRY_DELAY_SECONDS] else []) ++
        [SEv.att 2]) := by
  cases hf0 : fetch 0 <;> cases hf1 : fetch 1 <;> cases hf2 : fetch 2 <;>
    first
      | exact absurd hf0 (h0 _)
      | exact absurd hf1 (h1 _)
      | exact absurd hf2 (h2 _)
      | simp [MAX_SCRAPE_RETRIES, runAttempts, hf0, hf1, hf2]

/-- C4, counterexample.  The claim asserts a fixed 5-second inter-attempt
delay on every transient failure, including "missing expected data"; but the
`time.sleep` sits only in the `except` handler, so a run whose three attempts
all load the page yet fail to extract a price retries immediately: the trace
has the three attempts and no sleep at all. -/
theorem scrape_noparse_retries_without_delay :
    scrape_buff_price [("X", { buff := some 5, buff_phase := none })]
        (fun _ => AttemptOutcome.noparse) "X" =
      (none, [SEv.att 0, SEv.att 1, SEv.att 2]) := by decide

/-- C4, amended.  When the base name resolves (market entry with a `"buff"`
id, no phase decline) and all three attempts fail, `scrape_buff_price`
performs exactly `MAX_SCRAPE_RETRIES = 3` attempts, sleeping
`RETRY_DELAY_SECONDS = 5` before a retry exactly when the failed attempt
raised (timeout/navigation failure) and was not the last — a
loaded-page-without-price failure retries immediately — and returns the
failure `(None, None)`; and whenever a scrape returns the failure, the
endpoint step leaves the cache exactly as it was (in particular a key absent
beforehand has no entry afterwards). -/
theorem scrape_fetch_exhausted
    (market : List (String × MarketEntry)) (fetch : Nat → AttemptOutcome)
    (name : String) (e : MarketEntry) (bid : Nat)
    (hlook : lookupKV market (corrected_base name) = some e)
    (hbuff : e.buff = some bid)
    (hph : phase_declined name e = false)
    (h0 : ∀ y, fetch 0 ≠ AttemptOutcome.ok y)
    (h1 : ∀ y, fetch 1 ≠ AttemptOutcome.ok y)
    (h2 : ∀ y, fetch 2 ≠ AttemptOutcome.ok y) :
    scrape_buff_price market fetch name =
      (none,
        [SEv.att 0] ++
          (if fetch 0 = AttemptOutcome.exn then [SEv.slp RETRY_DELAY_SECONDS] else []) ++
        [SEv.att 1] ++
          (if fetch 1 = AttemptOutcome.exn then [SEv.slp RETRY_DELAY_SECONDS] else []) ++
        [SEv.att 2]) ∧
    (∀ (env : ScrapeEnv) (cache : Cache) (raw : String),
      (scrape_buff_price env.market (env.fetch (correctSeparator raw))
          (correctSeparator raw)).1 = none →
      (processItem env cache raw).1 = cache ∧
      ∀ k, lookupKV (processItem env cache raw).1 k = lookupKV cache k) := by
  constructor
  · have hmain : scrape_buff_price market fetch name =
        runAttempts fetch 0 MAX_SCRAPE_RETRIES := by
      simp [scrape_buff_price, hlook, hbuff, hph]
    rw [hmain]
    exact runAttempts_all_fail fetch h0 h1 h2
  · intro env cache raw hnone
    have hpi : (processItem env cache raw).1 = cache := by
      simp only [processItem]
      split
      · rw [hnone]
      · rfl
    exact ⟨hpi, fun k => by rw [hpi]⟩

/-- Witness for C4's amended theorem: a key that resolves, a Fetcher raising
on all three attempts — three attempt events separated by two 5-second
sleeps, failure result, and an absent key stays absent through the endpoint
step. -/
theorem scrape_fetch_exhausted_witness :
    scrape_buff_price [("X", { buff := some 5, buff_phase := none })]
        (fun _ => AttemptOutcome.exn) "X" =
      (none, [SEv.att 0, SEv.slp 5, SEv.att 1, SEv.slp 5, SEv.att 2]) ∧
    (processItem
      ({ market := [("X", { buff := some 5, buff_phase := none })],
         fetch := fun _ _ => AttemptOutcome.exn,
         parse := fun _ => none, now := 0, nowStr := "T", items_file := [] } : ScrapeEnv)
      [] "X").1 = [] := by
  have h := scrape_fetch_exhausted [("X", { buff := some 5, buff_phase := none })]
    (fun _ => AttemptOutcome.exn) "X" { buff := some 5, buff_phase := none } 5
    (by decide) rfl (by decide)
    (fun y hy => by cases hy) (fun y hy => by cases hy) (fun y hy => by cases hy)
  constructor
  · rw [h.1]; rfl
  · exact (h.2
      ({ market := [("X", { buff := some 5, buff_phase := none })],
         fetch := fun _ _ => AttemptOutcome.exn,
         parse := fun _ => none, now := 0, nowStr := "T", items_file := [] } : ScrapeEnv)
      [] "X" (by decide)).1

/-- C5, counterexample.  A key whose canonical form carries a recognized
phase (`Ruby`) and whose base entry defines phase tags
(`buff_phase = {"Phase 1": 10}`): the claim says the Fetcher is never
invoked, but because `Ruby` is not among the entry's tags the code proceeds
to the fetch loop — the attempt trace is non-empty. -/
theorem scrape_phase_without_tag_invokes_fetcher :
    phaseDetectStr "X - Ruby" = some ("X", "Ruby") ∧
    (lookupKV [("X", ({ buff := some 5, buff_phase := some [("Phase 1", 10)] } : MarketEntry))]
        "X" =
      some ({ buff := some 5, buff_phase := some [("Phase 1", 10)] } : MarketEntry)) ∧
    (scrape_buff_price [("X", { buff := some 5, buff_phase := some [("Phase 1", 10)] })]
        (fun _ => AttemptOutcome.exn) "X - Ruby").2 ≠ [] := by decide

/-- C5, amended.  When the canonical form carries a recognized phase and the
base entry's phase-tag mapping contains that phase's tag, `scrape_buff_price`
returns the failure without a single fetch attempt (empty event trace: the
Fetcher is never invoked).  A detected phase that is *not* among the entry's
tags proceeds to the fetch instead. -/
theorem scrape_buff_price_declines_tagged_phase
    (market : List (String × MarketEntry)) (fetch : Nat → AttemptOutcome)
    (name : String) (b tok : List Char) (e : MarketEntry) (bid : Nat)
    (tags : List (String × Nat)) (tid : Nat)
    (hdet : phaseDetect name.data = some (b, tok))
    (hlook : lookupKV market (corrected_base name) = some e)
    (hbuff : e.buff = some bid)
    (htags : e.buff_phase = some tags)
    (htid : lookupKV tags (String.mk tok) = some tid) :
    scrape_buff_price market fetch name = (none, []) := by
  have hph : phase_declined name e = true := by
    simp [phase_declined, hdet, htags, htid]
  simp [scrape_buff_price, hlook, hbuff, hph]

/-- Witness for C5's amended theorem: the §8 scenario — a phased key with a
known tag yields the failure with the Fetcher never invoked. -/
theorem scrape_buff_price_declines_tagged_phase_witness :
    scrape_buff_price [("X", { buff := some 5, buff_phase := some [("Phase 1", 10)] })]
        (fun _ => AttemptOutcome.ok 100) "X - Phase 1" = (none, []) :=
  scrape_buff_price_declines_tagged_phase
    [("X", { buff := some 5, buff_phase := some [("Phase 1", 10)] })]
    (fun _ => AttemptOutcome.ok 100) "X - Phase 1"
    "X".data "Phase 1".data { buff := some 5, buff_phase := some [("Phase 1", 10)] }
    5 [("Phase 1", 10)] 10
    (by decide) (by decide) rfl rfl (by decide)

/-- C6.  Every successful scrape result satisfies
`usd_price = round(yuan_price * YUAN_TO_USD_RATE, 2)` exactly as computed at
lines 247-248, and persisting it stamps the record with the current UTC
instant: the cache entry written for the key is
`{yuan_price, usd_price, timestamp = now}`. -/
theorem scrape_success_record_invariant :
    (∀ market fetch name y u,
      (scrape_buff_price market fetch name).1 = some (y, u) →
      u = pyRound2 (y * YUAN_TO_USD_RATE)) ∧
    (∀ (cache : Cache) (k : String) (y u : ℚ) (ts : String),
      lookupKV (update_item_data_safely cache k y u ts).2 k =
        some { yuan_price := y, usd_price := u, timestamp := some ts }) := by
  constructor
  · intro market fetch name y u h
    unfold scrape_buff_price at h
    split at h
    · simp at h
    · split at h
      · simp at h
      · split at h
        · simp at h
        · exact runAttempts_fst_some fetch MAX_SCRAPE_RETRIES 0 y u h
  · intro cache k y u ts
    have hstep : (update_item_data_safely cache k y u ts).2 =
        insertKV cache k { yuan_price := y, usd_price := u, timestamp := some ts } := by
      simp [update_item_data_safely, save_data_atomic]
    rw [hstep]
    exact lookupKV_insertKV_self cache k _

/-- Witness for C6: the §8 scenario — empty cache, market id 123 for
`"AK-47 | Redline"`, Fetcher returns 500.0; the scrape yields
`(500, round(500 * 0.13937312, 2))`, the rounded value is 69.69, and the
persisted record is `{500, 69.69, timestamp = now}`. -/
theorem scrape_success_record_invariant_witness :
    scrape_buff_price [("AK-47 | Redline", { buff := some 123, buff_phase := none })]
        (fun _ => AttemptOutcome.ok 500) "AK-47 | Redline" =
      (some (500, pyRound2 (500 * YUAN_TO_USD_RATE)), [SEv.att 0]) ∧
    pyRound2 (500 * YUAN_TO_USD_RATE) = 6969 / 100 ∧
    lookupKV (update_item_data_safely [] "AK-47 | Redline" 500
        (pyRound2 (500 * YUAN_TO_USD_RATE)) "2025-01-01T00:00:00+00:00").2
        "AK-47 | Redline" =
      some { yuan_price := 500, usd_price := pyRound2 (500 * YUAN_TO_USD_RATE),
             timestamp := some "2025-01-01T00:00:00+00:00" } := by
  refine ⟨rfl, pyRound2_example, ?_⟩
  exact scrape_success_record_invariant.2 [] "AK-47 | Redline" 500
    (pyRound2 (500 * YUAN_TO_USD_RATE)) "2025-01-01T00:00:00+00:00"

theorem lookupKV_eq_some_of_mem {β : Type} (m : List (String × β))
    (h : (m.map Prod.fst).Nodup) (k : String) (r : β) :
    lookupKV m k = some r ↔ (k, r) ∈ m := by
  induction m with
  | nil => simp [lookupKV]
  | cons p t ih =>
    obtain ⟨k0, v0⟩ := p
    simp only [List.map_cons, List.nodup_cons] at h
    obtain ⟨hk0, ht⟩ := h
    by_cases hk : k0 = k
    · subst hk
      show (if k0 = k0 then some v0 else lookupKV t k0) = some r ↔ _
      rw [if_pos rfl]
      simp only [List.mem_cons, Option.some.injEq]
      constructor
      · intro hv
        subst hv
        exact Or.inl rfl
      · rintro (hp | hp)
        · injection hp with h1 h2
          exact h2.symm
        · exact absurd (List.mem_map_of_mem Prod.fst hp) (by simpa using hk0)
    · show (if k0 = k then some v0 else lookupKV t k) = some r ↔ _
      rw [if_neg hk]
      rw [ih ht]
      simp only [List.mem_cons]
      constructor
      · exact Or.inr
      · rintro (hp | hp)
        · exfalso
          injection hp with h1 h2
          exact hk h1.symm
        · exact hp

theorem stale_items_to_scrape_mem (parse : String → Option ℤ) (now : ℤ) (disk : Cache)
    (k : String) :
    k ∈ stale_items_to_scrape parse now disk ↔
      ∃ r, (k, r) ∈ disk ∧ is_stale parse now r.timestamp = true := by
  unfold stale_items_to_scrape
  rw [List.mem_map]
  constructor
  · rintro ⟨⟨k', r⟩, hmem, rfl⟩
    rw [List.mem_filter] at hmem
    exact ⟨r, hmem.1, hmem.2⟩
  · rintro ⟨r, hmem, hst⟩
    exact ⟨(k, r), List.mem_filter.mpr ⟨hmem, hst⟩, rfl⟩

theorem sweepBatch_ignores_items_file (e1 e2 : ScrapeEnv)
    (hm : e1.market = e2.market) (hf : e1.fetch = e2.fetch) (hn : e1.nowStr = e2.nowStr) :
    ∀ (cache : Cache) (ks : List String), sweepBatch e1 cache ks = sweepBatch e2 cache ks := by
  intro cache ks
  induction ks generalizing cache with
  | nil => rfl
  | cons k rest ih =>
    have hstep : sweepItem e1 cache k = sweepItem e2 cache k := by
      unfold sweepItem
      rw [hm, hf, hn]
    simp only [sweepBatch, hstep, ih]

/-- C7.  The key set a scheduled sweep attempts to refresh is exactly the set
of keys present in the persisted mapping whose timestamp is stale per
`is_stale`; a cached key with a fresh timestamp is not scraped; and the sweep
never consults the static item list — two environments differing only in
`items_file` produce identical sweeps. -/
theorem perform_scheduled_update_targets (parse : String → Option ℤ) (now : ℤ)
    (disk : Cache) (h : (disk.map Prod.fst).Nodup) :
    (∀ k, k ∈ stale_items_to_scrape parse now disk ↔
      ∃ r, lookupKV disk k = some r ∧ is_stale parse now r.timestamp = true) ∧
    (∀ k r, lookupKV disk k = some r → is_stale parse now r.timestamp = false →
      k ∉ stale_items_to_scrape parse now disk) ∧
    (∀ e1 e2 : ScrapeEnv, e1.market = e2.market → e1.fetch = e2.fetch →
      e1.parse = e2.parse → e1.now = e2.now → e1.nowStr = e2.nowStr →
      perform_scheduled_price_update e1 disk = perform_scheduled_price_update e2 disk) := by
  have hmem : ∀ k, k ∈ stale_items_to_scrape parse now disk ↔
      ∃ r, lookupKV disk k = some r ∧ is_stale parse now r.timestamp = true := by
    intro k
    rw [stale_items_to_scrape_mem]
    constructor
    · rintro ⟨r, hmemr, hst⟩
      exact ⟨r, (lookupKV_eq_some_of_mem disk h k r).mpr hmemr, hst⟩
    · rintro ⟨r, hlk, hst⟩
      exact ⟨r, (lookupKV_eq_some_of_mem disk h k r).mp hlk, hst⟩
  refine ⟨hmem, ?_, ?_⟩
  · intro k r hlk hfresh hk
    obtain ⟨r', hlk', hst'⟩ := (hmem k).mp hk
    rw [hlk] at hlk'
    obtain rfl : r = r' := by injection hlk'
    rw [hfresh] at hst'
    cases hst'
  · intro e1 e2 hm hf hp hn hns
    unfold perform_scheduled_price_update
    rw [hp, hn]
    exact sweepBatch_ignores_items_file e1 e2 hm hf hns disk _

/-- Witness for C7 at a concrete cache: the stale key and the
missing-timestamp key are swept, the fresh key is not. -/
theorem perform_scheduled_update_targets_witness :
    ("B" ∈ stale_items_to_scrape (fun s => if s = "T" then some 0 else none) 0
      [("A", { yuan_price := 1, usd_price := 1, timestamp := some "T" }),
       ("B", { yuan_price := 1, usd_price := 1, timestamp := some "OLD" }),
       ("C", { yuan_price := 1, usd_price := 1, timestamp := none })]) ∧
    ("C" ∈ stale_items_to_scrape (fun s => if s = "T" then some 0 else none) 0
      [("A", { yuan_price := 1, usd_price := 1, timestamp := some "T" }),
       ("B", { yuan_price := 1, usd_price := 1, timestamp := some "OLD" }),
       ("C", { yuan_price := 1, usd_price := 1, timestamp := none })]) ∧
    ("A" ∉ stale_items_to_scrape (fun s => if s = "T" then some 0 else none) 0
      [("A", { yuan_price := 1, usd_price := 1, timestamp := some "T" }),
       ("B", { yuan_price := 1, usd_price := 1, timestamp := some "OLD" }),
       ("C", { yuan_price := 1, usd_price := 1, timestamp := none })]) := by
  have h := perform_scheduled_update_targets (fun s => if s = "T" then some 0 else none) 0
    [("A", { yuan_price := 1, usd_price := 1, timestamp := some "T" }),
     ("B", { yuan_price := 1, usd_price := 1, timestamp := some "OLD" }),
     ("C", { yuan_price := 1, usd_price := 1, timestamp := none })]
    (by decide)
  refine ⟨(h.1 "B").mpr ⟨{ yuan_price := 1, usd_price := 1, timestamp := some "OLD" },
      by decide, by decide⟩,
    (h.1 "C").mpr ⟨{ yuan_price := 1, usd_price := 1, timestamp := none },
      by decide, by decide⟩,
    h.2.1 "A" { yuan_price := 1, usd_price := 1, timestamp := some "T" }
      (by decide) (by decide)⟩

/-- C9, counterexample.  An on-demand batch `["A", "B"]` in which `"A"` is
served from the cache (fresh timestamp): the `time.sleep(2)` of the endpoint
runs only `if should_scrape`, so no delay separates the `"A"` operation from
the `"B"` operation — contradicting "a fixed 2-second pacing delay is
enforced between successive distinct-key operations regardless of the
outcome (scraped, served from cache, or failed)". -/
theorem endpoint_cache_hit_skips_delay :
    (endpointBatch
      ({ market := [("B", { buff := some 7, buff_phase := none })],
         fetch := fun _ _ => AttemptOutcome.exn,
         parse := fun s => if s = "T" then some 0 else none,
         now := 0, nowStr := "T2", items_file := ["A", "B"] } : ScrapeEnv)
      [("A", { yuan_price := 1, usd_price := 1, timestamp := some "T" })]
      ["A", "B"]).2 =
      [Ev.op "A" OpKind.hit, Ev.op "B" OpKind.scrapeFail, Ev.sleep 2] ∧
    noAdjacentOps
      (endpointBatch
        ({ market := [("B", { buff := some 7, buff_phase := none })],
           fetch := fun _ _ => AttemptOutcome.exn,
           parse := fun s => if s = "T" then some 0 else none,
           now := 0, nowStr := "T2", items_file := ["A", "B"] } : ScrapeEnv)
        [("A", { yuan_price := 1, usd_price := 1, timestamp := some "T" })]
        ["A", "B"]).2 = false := by decide

theorem processItem_snd_shape (env : ScrapeEnv) (cache : Cache) (raw : String) :
    (processItem env cache raw).2 = [Ev.op (correctSeparator raw) OpKind.hit] ∨
    (processItem env cache raw).2 =
      [Ev.op (correctSeparator raw) OpKind.scrapedOk, Ev.sleep 2] ∨
    (processItem env cache raw).2 =
      [Ev.op (correctSeparator raw) OpKind.scrapeFail, Ev.sleep 2] := by
  simp only [processItem]
  split
  · split
    · exact Or.inr (Or.inl rfl)
    · exact Or.inr (Or.inr rfl)
  · exact Or.inl rfl

theorem sweepItem_snd_shape (env : ScrapeEnv) (cache : Cache) (k : String) :
    (sweepItem env cache k).2 = [Ev.op k OpKind.scrapedOk, Ev.sleep 2] ∨
    (sweepItem env cache k).2 = [Ev.op k OpKind.scrapeFail, Ev.sleep 2] := by
  simp only [sweepItem]
  split
  · exact Or.inl rfl
  · exact Or.inr rfl

theorem delayAfterEveryOp_op_sleep (k : String) (kind : OpKind) (l : List Ev) :
    delayAfterEveryOp (Ev.op k kind :: Ev.sleep 2 :: l) = delayAfterEveryOp l := rfl

theorem delayIffScraped_hit_cons_op (k k' : String) (kind : OpKind) (l : List Ev) :
    delayIffScraped (Ev.op k OpKind.hit :: Ev.op k' kind :: l) =
      delayIffScraped (Ev.op k' kind :: l) := rfl

theorem delayIffScraped_hit_nil (k : String) :
    delayIffScraped [Ev.op k OpKind.hit] = true := rfl

theorem delayIffScraped_scrapedOk (k : String) (l : List Ev) :
    delayIffScraped (Ev.op k OpKind.scrapedOk :: Ev.sleep 2 :: l) = delayIffScraped l := rfl

theorem delayIffScraped_scrapeFail (k : String) (l : List Ev) :
    delayIffScraped (Ev.op k OpKind.scrapeFail :: Ev.sleep 2 :: l) = delayIffScraped l := rfl

theorem sweepBatch_paced (env : ScrapeEnv) :
    ∀ (ks : List String) (cache : Cache),
      delayAfterEveryOp (sweepBatch env cache ks).2 = true := by
  intro ks
  induction ks with
  | nil => intro cache; rfl
  | cons k rest ih =>
    intro cache
    rcases sweepItem_snd_shape env cache k with h | h <;>
      · simp only [sweepBatch, h, List.cons_append, List.nil_append]
        rw [delayAfterEveryOp_op_sleep]
        exact ih _

theorem endpointBatch_trace_head (env : ScrapeEnv) :
    ∀ (items : List String) (cache : Cache),
      (endpointBatch env cache items).2 = [] ∨
      ∃ k kind rest, (endpointBatch env cache items).2 = Ev.op k kind :: rest := by
  intro items
  induction items with
  | nil => intro cache; exact Or.inl rfl
  | cons raw rest ih =>
    intro cache
    right
    rcases processItem_snd_shape env cache raw with h | h | h
    · exact ⟨correctSeparator raw, OpKind.hit,
        (endpointBatch env (processItem env cache raw).1 rest).2,
        by simp only [endpointBatch, h, List.cons_append, List.nil_append]⟩
    · exact ⟨correctSeparator raw, OpKind.scrapedOk,
        Ev.sleep 2 :: (endpointBatch env (processItem env cache raw).1 rest).2,
        by simp only [endpointBatch, h, List.cons_append, List.nil_append]⟩
    · exact ⟨correctSeparator raw, OpKind.scrapeFail,
        Ev.sleep 2 :: (endpointBatch env (processItem env cache raw).1 rest).2,
        by simp only [endpointBatch, h, List.cons_append, List.nil_append]⟩

theorem endpointBatch_delayIffScraped (env : ScrapeEnv) :
    ∀ (items : List String) (cache : Cache),
      delayIffScraped (endpointBatch env cache items).2 = true := by
  intro items
  induction items with
  | nil => intro cache; rfl
  | cons raw rest ih =>
    intro cache
    rcases processItem_snd_shape env cache raw with h | h | h
    · rcases endpointBatch_trace_head env rest (processItem env cache raw).1 with hb |
        ⟨k, kind, r', hb⟩
      · simp only [endpointBatch, h, hb, List.cons_append, List.nil_append]
        exact delayIffScraped_hit_nil _
      · simp only [endpointBatch, h, hb, List.cons_append, List.nil_append]
        rw [delayIffScraped_hit_cons_op, ← hb]
        exact ih _
    · simp only [endpointBatch, h, List.cons_append, List.nil_append]
      rw [delayIffScraped_scrapedOk]
      exact ih _
    · simp only [endpointBatch, h, List.cons_append, List.nil_append]
      rw [delayIffScraped_scrapeFail]
      exact ih _

/-- C9, amended.  In the scheduled sweep a fixed 2-second pacing delay
follows every per-item operation regardless of outcome; in the on-demand
batch the 2-second delay follows exactly the operations that attempted a
scrape (successful or failed) — an item served from the cache proceeds to the
next key with no delay.  (The standalone `scrape_prices.py` loop uses a
5-second delay, likewise skipped for fresh items.) -/
theorem pacing_policy (env : ScrapeEnv) :
    (∀ disk : Cache, delayAfterEveryOp (perform_scheduled_price_update env disk).2 = true) ∧
    (∀ (cache : Cache) (ks : List String),
      delayAfterEveryOp (sweepBatch env cache ks).2 = true) ∧
    (∀ (cache : Cache) (items : List String),
      delayIffScraped (endpointBatch env cache items).2 = true) :=
  ⟨fun disk => sweepBatch_paced env _ disk,
   fun cache ks => sweepBatch_paced env ks cache,
   fun cache items => endpointBatch_delayIffScraped env items cache⟩

theorem lowerIn_self_or_mem (tbl : List (Char × Char)) (c : Char) :
    lowerIn tbl c = c ∨ (c, lowerIn tbl c) ∈ tbl := by
  induction tbl with
  | nil => exact Or.inl rfl
  | cons p t ih =>
    obtain ⟨u, v⟩ := p
    by_cases hc : c = u
    · subst hc
      right
      rw [lowerIn, if_pos rfl]
      exact List.mem_cons_self _ _
    · rw [lowerIn, if_neg hc]
      rcases ih with h | h
      · exact Or.inl h
      · exact Or.inr (List.mem_cons_of_mem _ h)

theorem isPySpace_lowerAscii (c : Char) : isPySpace (lowerAscii c) = isPySpace c := by
  rcases lowerIn_self_or_mem asciiCaseTable c with h | h
  · rw [lowerAscii, h]
  · have hall : ∀ p ∈ asciiCaseTable, isPySpace p.1 = false ∧ isPySpace p.2 = false := by
      decide
    obtain ⟨h1, h2⟩ := hall _ h
    rw [lowerAscii]
    rw [h2, h1]

theorem isPySpace_eq_false_of_lower (c x : Char) (h : lowerAscii c = x)
    (hx : isPySpace x = false) : isPySpace c = false := by
  rw [← isPySpace_lowerAscii, h, hx]

theorem eq_space_of_lower_eq_space (c : Char) (h : lowerAscii c = ' ') : c = ' ' := by
  rcases lowerIn_self_or_mem asciiCaseTable c with h' | h'
  · rw [lowerAscii] at h
    rw [← h', h]
  · have hall : ∀ p ∈ asciiCaseTable, p.2 ≠ ' ' := by decide
    rw [lowerAscii] at h
    exact absurd (h ▸ h') (fun hm => hall _ hm rfl)

theorem matchCI_spec (p : List Char) :
    ∀ l m r, matchCI p l = some (m, r) → l = m ++ r ∧ m.map lowerAscii = p := by
  induction p with
  | nil =>
    intro l m r h
    rw [matchCI] at h
    injection h with h'
    injection h' with h1 h2
    subst h1; subst h2
    exact ⟨rfl, rfl⟩
  | cons q ps ih =>
    intro l m r h
    cases l with
    | nil => exact absurd h (by rw [matchCI]; exact fun hc => Option.noConfusion hc)
    | cons c cs =>
      rw [matchCI] at h
      by_cases hq : lowerAscii c = q
      · rw [if_pos hq] at h
        cases hm : matchCI ps cs with
        | none => rw [hm] at h; exact absurd h (by exact fun hc => Option.noConfusion hc)
        | some pr =>
          obtain ⟨m', r'⟩ := pr
          rw [hm] at h
          injection h with h'
          injection h' with h1 h2
          obtain ⟨hcs, hmap⟩ := ih cs m' r' hm
          subst h1; subst h2
          subst hcs
          exact ⟨rfl, by rw [List.map_cons, hmap, hq]⟩
      · rw [if_neg hq] at h
        exact absurd h (fun hc => Option.noConfusion hc)

theorem matchCI_complete (p : List Char) :
    ∀ m r, m.map lowerAscii = p → matchCI p (m ++ r) = some (m, r) := by
  induction p with
  | nil =>
    intro m r hm
    have : m = [] := by
      cases m with
      | nil => rfl
      | cons a b => exact absurd hm (by simp)
    subst this
    rfl
  | cons q ps ih =>
    intro m r hm
    cases m with
    | nil => exact absurd hm (by simp)
    | cons c m' =>
      rw [List.map_cons] at hm
      injection hm with h1 h2
      rw [List.cons_append, matchCI, if_pos h1, ih m' r h2]

theorem matchCI_cons_inv (q : Char) (ps : List Char) (l : List Char) (m r : List Char)
    (h : matchCI (q :: ps) l = some (m, r)) :
    ∃ c cs m', l = c :: cs ∧ lowerAscii c = q ∧ m = c :: m' ∧
      matchCI ps cs = some (m', r) := by
  cases l with
  | nil => exact absurd h (by rw [matchCI]; exact fun hc => Option.noConfusion hc)
  | cons c cs =>
    rw [matchCI] at h
    by_cases hq : lowerAscii c = q
    · rw [if_pos hq] at h
      cases hm : matchCI ps cs with
      | none => rw [hm] at h; exact absurd h (fun hc => Option.noConfusion hc)
      | some pr =>
        obtain ⟨m', r'⟩ := pr
        rw [hm] at h
        injection h with h'
        injection h' with h1 h2
        subst h1; subst h2
        exact ⟨c, cs, m', rfl, hq, rfl, hm⟩
    · rw [if_neg hq] at h
      exact absurd h (fun hc => Option.noConfusion hc)

theorem matchCI_none_of_head_ne (q : Char) (ps : List Char) (c : Char) (l : List Char)
    (h : lowerAscii c ≠ q) : matchCI (q :: ps) (c :: l) = none := by
  rw [matchCI, if_neg h]

theorem matchCI_nil_none (q : Char) (ps : List Char) : matchCI (q :: ps) [] = none := by
  rw [matchCI]

theorem matchCI_append (p1 p2 : List Char) :
    ∀ l m r, matchCI (p1 ++ p2) l = some (m, r) →
      ∃ m1 m2 r1, matchCI p1 l = some (m1, r1) ∧ matchCI p2 r1 = some (m2, r) ∧
        m = m1 ++ m2 := by
  induction p1 with
  | nil =>
    intro l m r h
    exact ⟨[], m, l, rfl, h, rfl⟩
  | cons q ps ih =>
    intro l m r h
    rw [List.cons_append] at h
    obtain ⟨c, cs, m', hl, hq, hm, hrest⟩ := matchCI_cons_inv q (ps ++ p2) l m r h
    obtain ⟨m1, m2, r1, hp1, hp2, hm'⟩ := ih cs m' r hrest
    subst hl; subst hm; subst hm'
    exact ⟨c :: m1, m2, r1, by rw [matchCI, if_pos hq, hp1], hp2, rfl⟩

theorem dopplerAlt_spec (l : List Char) (w r : List Char)
    (h : dopplerAlt l = some (w, r)) : l = w ++ r ∧ WordShape w := by
  rw [dopplerAlt] at h
  cases hd : matchCI dopplerW l with
  | some pr =>
    rw [hd] at h
    injection h with h'
    subst h'
    obtain ⟨hl, hm⟩ := matchCI_spec dopplerW l w r hd
    exact ⟨hl, Or.inl hm⟩
  | none =>
    rw [hd] at h
    obtain ⟨hl, hm⟩ := matchCI_spec gammaW l w r h
    exact ⟨hl, Or.inr hm⟩

theorem dopplerAlt_none_of_head (c : Char) (l : List Char)
    (hd : lowerAscii c ≠ 'd') (hg : lowerAscii c ≠ 'g') :
    dopplerAlt (c :: l) = none := by
  rw [dopplerAlt]
  rw [show dopplerW = 'd' :: "oppler".data from rfl,
    show gammaW = 'g' :: "amma doppler".data from rfl]
  rw [matchCI_none_of_head_ne 'd' _ c l hd,
    matchCI_none_of_head_ne 'g' _ c l hg]

theorem dopplerAlt_nil : dopplerAlt [] = none := by decide

theorem WordShape_head (w : List Char) (h : WordShape w) :
    ∃ c w', w = c :: w' ∧ (lowerAscii c = 'd' ∨ lowerAscii c = 'g') := by
  rcases h with h | h
  · cases w with
    | nil => exact absurd h (by simp [dopplerW])
    | cons c w' =>
      rw [List.map_cons] at h
      rw [show dopplerW = 'd' :: "oppler".data from rfl] at h
      injection h with h1 h2
      exact ⟨c, w', rfl, Or.inl h1⟩
  · cases w with
    | nil => exact absurd h (by simp [gammaW])
    | cons c w' =>
      rw [List.map_cons] at h
      rw [show gammaW = 'g' :: "amma doppler".data from rfl] at h
      injection h with h1 h2
      exact ⟨c, w', rfl, Or.inr h1⟩

theorem phaseNum_spec (l : List Char) (g r : List Char)
    (h : phaseNum l = some (g, r)) :
    l = g ++ r ∧
    ∃ m sp d, g = m ++ sp ++ [d] ∧ m.map lowerAscii = phaseW ∧
      (∀ c ∈ sp, isPySpace c = true) ∧ isAsciiDigit d = true := by
  rw [phaseNum] at h
  cases hm : matchCI phaseW l with
  | none => rw [hm] at h; exact absurd h (fun hc => Option.noConfusion hc)
  | some pr =>
    obtain ⟨m, r0⟩ := pr
    rw [hm] at h
    dsimp only at h
    cases hdw : r0.dropWhile isPySpace with
    | nil =>
      rw [hdw] at h
      exact absurd h (fun hc => Option.noConfusion hc)
    | cons d rest =>
      rw [hdw] at h
      dsimp only at h
      by_cases hdig : isAsciiDigit d = true
      · rw [if_pos hdig] at h
        injection h with h'
        injection h' with h1 h2
        obtain ⟨hl, hmap⟩ := matchCI_spec phaseW l m r0 hm
        refine ⟨?_, m, r0.takeWhile isPySpace, d, ?_, hmap, ?_, hdig⟩
        · rw [hl, ← h1, ← h2]
          have : r0 = r0.takeWhile isPySpace ++ r0.dropWhile isPySpace :=
            (List.takeWhile_append_dropWhile isPySpace r0).symm
          rw [show m ++ r0.takeWhile isPySpace ++ [d] ++ rest =
              m ++ (r0.takeWhile isPySpace ++ (d :: rest)) by simp, ← hdw, ← this]
        · rw [← h1]
        · intro c hc
          exact List.mem_takeWhile_imp hc
      · rw [if_neg hdig] at h
        exact absurd h (fun hc => Option.noConfusion hc)

theorem corrTok_spec (l : List Char) (g r : List Char)
    (h : corrTok l = some (g, r)) : l = g ++ r ∧ TokShape g := by
  rw [corrTok] at h
  cases hp : phaseNum l with
  | some pr =>
    rw [hp] at h
    injection h with h'
    subst h'
    obtain ⟨hl, hsh⟩ := phaseNum_spec l g r hp
    exact ⟨hl, Or.inl hsh⟩
  | none =>
    rw [hp] at h
    cases h1 : matchCI "ruby".data l with
    | some pr =>
      rw [h1] at h
      injection h with h'
      subst h'
      obtain ⟨hl, hm⟩ := matchCI_spec _ l g r h1
      exact ⟨hl, Or.inr (Or.inl hm)⟩
    | none =>
      rw [h1] at h
      cases h2 : matchCI "sapphire".data l with
      | some pr =>
        rw [h2] at h
        injection h with h'
        subst h'
        obtain ⟨hl, hm⟩ := matchCI_spec _ l g r h2
        exact ⟨hl, Or.inr (Or.inr (Or.inl hm))⟩
      | none =>
        rw [h2] at h
        cases h3 : matchCI "emerald".data l with
        | some pr =>
          rw [h3] at h
          injection h with h'
          subst h'
          obtain ⟨hl, hm⟩ := matchCI_spec _ l g r h3
          exact ⟨hl, Or.inr (Or.inr (Or.inr (Or.inl hm)))⟩
        | none =>
          rw [h3] at h
          obtain ⟨hl, hm⟩ := matchCI_spec _ l g r h
          exact ⟨hl, Or.inr (Or.inr (Or.inr (Or.inr hm)))⟩

theorem phaseNum_none_of_head (c : Char) (l : List Char) (h : lowerAscii c ≠ 'p') :
    phaseNum (c :: l) = none := by
  rw [phaseNum]
  rw [show phaseW = 'p' :: "hase".data from rfl]
  rw [matchCI_none_of_head_ne 'p' _ c l h]

theorem corrTok_none_of_head (c : Char) (l : List Char)
    (hp : lowerAscii c ≠ 'p') (hr : lowerAscii c ≠ 'r') (hs : lowerAscii c ≠ 's')
    (he : lowerAscii c ≠ 'e') (hb : lowerAscii c ≠ 'b') :
    corrTok (c :: l) = none := by
  rw [corrTok, phaseNum_none_of_head c l hp]
  rw [show "ruby".data = 'r' :: "uby".data from rfl,
    show "sapphire".data = 's' :: "apphire".data from rfl,
    show "emerald".data = 'e' :: "merald".data from rfl,
    show "black pearl".data = 'b' :: "lack pearl".data from rfl]
  rw [matchCI_none_of_head_ne 'r' _ c l hr, matchCI_none_of_head_ne 's' _ c l hs,
    matchCI_none_of_head_ne 'e' _ c l he, matchCI_none_of_head_ne 'b' _ c l hb]

theorem corrTok_nil : corrTok [] = none := by decide

theorem TokShape_head (g : List Char) (h : TokShape g) :
    ∃ c g', g = c :: g' ∧
      (lowerAscii c = 'p' ∨ lowerAscii c = 'r' ∨ lowerAscii c = 's' ∨
       lowerAscii c = 'e' ∨ lowerAscii c = 'b') := by
  rcases h with ⟨m, sp, d, hg, hm, hsp, hd⟩ | h | h | h | h
  · cases m with
    | nil => exact absurd hm (by simp [phaseW])
    | cons c m' =>
      rw [List.map_cons] at hm
      rw [show phaseW = 'p' :: "hase".data from rfl] at hm
      injection hm with h1 h2
      exact ⟨c, m' ++ sp ++ [d], by rw [hg]; simp, Or.inl h1⟩
  all_goals cases g with
    | nil => simp at h
    | cons c g' =>
      rw [List.map_cons] at h
      first
        | (rw [show "ruby".data = 'r' :: "uby".data from rfl] at h
           injection h with h1 h2
           exact ⟨c, g', rfl, Or.inr (Or.inl h1)⟩)
        | (rw [show "sapphire".data = 's' :: "apphire".data from rfl] at h
           injection h with h1 h2
           exact ⟨c, g', rfl, Or.inr (Or.inr (Or.inl h1))⟩)
        | (rw [show "emerald".data = 'e' :: "merald".data from rfl] at h
           injection h with h1 h2
           exact ⟨c, g', rfl, Or.inr (Or.inr (Or.inr (Or.inl h1)))⟩)
        | (rw [show "black pearl".data = 'b' :: "lack pearl".data from rfl] at h
           injection h with h1 h2
           exact ⟨c, g', rfl, Or.inr (Or.inr (Or.inr (Or.inr h1)))⟩)

theorem matchAt_spec (l : List Char) (g1 g2 rest : List Char)
    (h : matchAt l = some (g1, g2, rest)) :
    ∃ c w s, g1 = c :: w ∧ isPySpace c = true ∧ WordShape w ∧ isPySpace s = true ∧
      l = g1 ++ s :: (g2 ++ rest) ∧ TokShape g2 := by
  cases l with
  | nil => exact absurd h (fun hc => Option.noConfusion hc)
  | cons c cs =>
    rw [matchAt] at h
    by_cases hsp : isPySpace c = true
    · rw [if_pos hsp] at h
      cases hda : dopplerAlt cs with
      | none => rw [hda] at h; exact absurd h (fun hc => Option.noConfusion hc)
      | some pr =>
        obtain ⟨w, r⟩ := pr
        rw [hda] at h
        dsimp only at h
        cases r with
        | nil => exact absurd h (fun hc => Option.noConfusion hc)
        | cons s r2 =>
          dsimp only at h
          by_cases hss : isPySpace s = true
          · rw [if_pos hss] at h
            cases hct : corrTok r2 with
            | none => rw [hct] at h; exact absurd h (fun hc => Option.noConfusion hc)
            | some pr2 =>
              obtain ⟨g, rr⟩ := pr2
              rw [hct] at h
              injection h with h'
              injection h' with h1 h2
              injection h2 with h2a h2b
              obtain ⟨hcs, hws⟩ := dopplerAlt_spec cs w (s :: r2) hda
              obtain ⟨hr2, hts⟩ := corrTok_spec r2 g rr hct
              subst h1; subst h2a; subst h2b
              refine ⟨c, w, s, rfl, hsp, hws, hss, ?_, hts⟩
              rw [hcs, hr2]
              simp
          · rw [if_neg hss] at h
            exact absurd h (fun hc => Option.noConfusion hc)
    · rw [if_neg hsp] at h
      exact absurd h (fun hc => Option.noConfusion hc)

theorem matchAt_none_of_head (c : Char) (l : List Char) (h : isPySpace c = false) :
    matchAt (c :: l) = none := by
  rw [matchAt, if_neg (by rw [h]; exact fun hc => Bool.noConfusion hc)]

theorem matchAt_nil : matchAt [] = none := rfl

theorem matchAt_length (l : List Char) (g1 g2 rest : List Char)
    (h : matchAt l = some (g1, g2, rest)) : rest.length < l.length := by
  obtain ⟨c, w, s, hg1, _, _, _, hl, _⟩ := matchAt_spec l g1 g2 rest h
  rw [hl, hg1]
  simp
  omega

theorem subAux_nil : ∀ f, subAux f [] = [] := by
  intro f
  cases f <;> rfl

theorem subAux_cons_none (f : Nat) (c : Char) (cs : List Char)
    (h : matchAt (c :: cs) = none) :
    subAux (f + 1) (c :: cs) = c :: subAux f cs := by
  rw [subAux, h]

theorem subAux_cons_some (f : Nat) (c : Char) (cs : List Char) (g1 g2 rest : List Char)
    (h : matchAt (c :: cs) = some (g1, g2, rest)) :
    subAux (f + 1) (c :: cs) = g1 ++ (' ' :: '-' :: ' ' :: []) ++ g2 ++ subAux f rest := by
  rw [subAux, h]

theorem subAux_head_nonspace (f : Nat) (l : List Char) (hf : l.length ≤ f)
    (c : Char) (T : List Char) (hout : subAux f l = c :: T) (hc : isPySpace c = false) :
    ∃ l' f', l = c :: l' ∧ T = subAux f' l' ∧ l'.length ≤ f' := by
  cases l with
  | nil =>
    rw [subAux_nil] at hout
    exact absurd hout (fun h => List.noConfusion h)
  | cons x xs =>
    cases f with
    | zero => simp at hf
    | succ f' =>
      cases hma : matchAt (x :: xs) with
      | some tr =>
        obtain ⟨g1, g2, rest⟩ := tr
        rw [subAux_cons_some f' x xs g1 g2 rest hma] at hout
        obtain ⟨c0, w, s, hg1, hspc, _, _, _, _⟩ := matchAt_spec _ _ _ _ hma
        rw [hg1] at hout
        rw [List.cons_append] at hout
        injection hout with h1 h2
        rw [h1] at hspc
        rw [hc] at hspc
        exact absurd hspc (fun hcc => Bool.noConfusion hcc)
      | none =>
        rw [subAux_cons_none f' x xs hma] at hout
        injection hout with h1 h2
        subst h1
        refine ⟨xs, f', rfl, h2.symm, ?_⟩
        rw [List.length_cons] at hf
        omega

theorem subAux_head_space (f : Nat) (l : List Char) (hf : l.length ≤ f)
    (s : Char) (T : List Char) (hout : subAux f l = s :: T) :
    (∃ l' f', l = s :: l' ∧ matchAt l = none ∧ T = subAux f' l' ∧ l'.length ≤ f') ∨
    (∃ w g2 rest f', matchAt l = some (s :: w, g2, rest) ∧
      T = w ++ (' ' :: '-' :: ' ' :: []) ++ g2 ++ subAux f' rest ∧
      rest.length ≤ f' ∧ WordShape w ∧ TokShape g2) := by
  cases l with
  | nil =>
    rw [subAux_nil] at hout
    exact absurd hout (fun h => List.noConfusion h)
  | cons x xs =>
    cases f with
    | zero => simp at hf
    | succ f' =>
      cases hma : matchAt (x :: xs) with
      | some tr =>
        obtain ⟨g1, g2, rest⟩ := tr
        right
        rw [subAux_cons_some f' x xs g1 g2 rest hma] at hout
        obtain ⟨c0, w, s0, hg1, hspc, hws, hs0, hl, hts⟩ := matchAt_spec _ _ _ _ hma
        rw [hg1] at hout
        rw [List.cons_append] at hout
        injection hout with h1 h2
        refine ⟨w, g2, rest, f', by rw [hg1, h1], h2.symm, ?_, hws, hts⟩
        have := matchAt_length _ _ _ _ hma
        rw [List.length_cons] at this hf
        omega
      | none =>
        left
        rw [subAux_cons_none f' x xs hma] at hout
        injection hout with h1 h2
        subst h1
        refine ⟨xs, f', rfl, rfl, h2.symm, ?_⟩
        rw [List.length_cons] at hf
        omega

theorem matchAt_cons_none_iff (c : Char) (X : List Char) (hc : isPySpace c = true) :
    matchAt (c :: X) = none ↔ chainB X = false := by
  rw [matchAt, if_pos hc, chainB]
  cases hda : dopplerAlt X with
  | none => simp
  | some pr =>
    obtain ⟨w, r⟩ := pr
    cases r with
    | nil => simp
    | cons s r2 =>
      dsimp only
      by_cases hss : isPySpace s = true
      · rw [if_pos hss, hss]
        cases hct : corrTok r2 with
        | none => simp
        | some pr2 => simp
      · rw [if_neg hss]
        have hsf : isPySpace s = false := by
          cases hb : isPySpace s
          · rfl
          · exact absurd hb hss
        rw [hsf]
        simp

theorem isAsciiDigit_lowerAscii (c : Char) : isAsciiDigit (lowerAscii c) = isAsciiDigit c := by
  rcases lowerIn_self_or_mem asciiCaseTable c with h | h
  · rw [lowerAscii, h]
  · have hall : ∀ p ∈ asciiCaseTable, isAsciiDigit p.1 = false ∧ isAsciiDigit p.2 = false := by
      decide
    obtain ⟨h1, h2⟩ := hall _ h
    rw [lowerAscii]
    rw [h2, h1]

theorem isAsciiDigit_eq_false_of_lower (c x : Char) (h : lowerAscii c = x)
    (hx : isAsciiDigit x = false) : isAsciiDigit c = false := by
  rw [← isAsciiDigit_lowerAscii, h, hx]

theorem spDigit_cons_space (x : Char) (l : List Char) (hx : isPySpace x = true) :
    spDigit (x :: l) = spDigit l := by
  rw [spDigit, spDigit, List.dropWhile_cons, if_pos hx]

theorem spDigit_cons_nonspace (x : Char) (l : List Char) (hx : isPySpace x = false) :
    spDigit (x :: l) = isAsciiDigit x := by
  rw [spDigit, List.dropWhile_cons, if_neg (by rw [hx]; exact fun hc => Bool.noConfusion hc)]

theorem phaseNum_inv (X : List Char) (pr : List Char × List Char)
    (h : phaseNum X = some pr) :
    ∃ m r0, matchCI phaseW X = some (m, r0) ∧ spDigit r0 = true := by
  rw [phaseNum] at h
  cases hm : matchCI phaseW X with
  | none => rw [hm] at h; exact absurd h (fun hc => Option.noConfusion hc)
  | some pr0 =>
    obtain ⟨m, r0⟩ := pr0
    rw [hm] at h
    dsimp only at h
    cases hdw : r0.dropWhile isPySpace with
    | nil => rw [hdw] at h; exact absurd h (fun hc => Option.noConfusion hc)
    | cons d rest =>
      rw [hdw] at h
      dsimp only at h
      by_cases hdig : isAsciiDigit d = true
      · exact ⟨m, r0, rfl, by rw [spDigit, hdw]; exact hdig⟩
      · rw [if_neg hdig] at h
        exact absurd h (fun hc => Option.noConfusion hc)

theorem phaseNum_isSome_intro (X : List Char) (m r0 : List Char)
    (hm : matchCI phaseW X = some (m, r0)) (hd : spDigit r0 = true) :
    (phaseNum X).isSome = true := by
  rw [phaseNum, hm]
  dsimp only
  rw [spDigit] at hd
  cases hdw : r0.dropWhile isPySpace with
  | nil =>
    rw [hdw] at hd
    dsimp only at hd
    exact absurd hd (fun hc => Bool.noConfusion hc)
  | cons d rest =>
    rw [hdw] at hd
    dsimp only at hd ⊢
    rw [if_pos hd]
    rfl

theorem corrTok_isSome_iff (l : List Char) :
    (corrTok l).isSome = true ↔
      (phaseNum l).isSome = true ∨ (matchCI "ruby".data l).isSome = true ∨
      (matchCI "sapphire".data l).isSome = true ∨
      (matchCI "emerald".data l).isSome = true ∨
      (matchCI "black pearl".data l).isSome = true := by
  rw [corrTok]
  cases phaseNum l <;> cases matchCI "ruby".data l <;> cases matchCI "sapphire".data l <;>
    cases matchCI "emerald".data l <;> cases matchCI "black pearl".data l <;> simp

theorem dopplerAlt_inv (X : List Char) (pr : List Char × List Char)
    (h : dopplerAlt X = some pr) :
    matchCI dopplerW X = some pr ∨
    (matchCI dopplerW X = none ∧ matchCI gammaW X = some pr) := by
  rw [dopplerAlt] at h
  cases hd : matchCI dopplerW X with
  | some pr' =>
    rw [hd] at h
    injection h with h'
    subst h'
    exact Or.inl rfl
  | none =>
    rw [hd] at h
    exact Or.inr ⟨rfl, h⟩

theorem dopplerAlt_intro_doppler (X : List Char) (pr : List Char × List Char)
    (h : matchCI dopplerW X = some pr) : dopplerAlt X = some pr := by
  rw [dopplerAlt, h]

theorem dopplerAlt_intro_gamma (X : List Char) (pr : List Char × List Char)
    (hn : matchCI dopplerW X = none) (h : matchCI gammaW X = some pr) :
    dopplerAlt X = some pr := by
  rw [dopplerAlt, hn, h]

theorem chainB_eq_true_iff (X : List Char) :
    chainB X = true ↔ ∃ w s r2, dopplerAlt X = some (w, s :: r2) ∧ isPySpace s = true ∧
      (corrTok r2).isSome = true := by
  rw [chainB]
  cases hda : dopplerAlt X with
  | none => simp
  | some pr =>
    obtain ⟨w, r⟩ := pr
    cases r with
    | nil => simp
    | cons s r2 =>
      dsimp only
      rw [Bool.and_eq_true]
      constructor
      · rintro ⟨h1, h2⟩
        exact ⟨w, s, r2, rfl, h1, h2⟩
      · rintro ⟨w', s', r2', heq, h1, h2⟩
        injection heq with heq'
        injection heq' with ha hb
        injection hb with hb1 hb2
        subst hb1; subst hb2
        exact ⟨h1, h2⟩

theorem matchCI_append_intro (p1 p2 : List Char) :
    ∀ l m1 r1 m2 r2, matchCI p1 l = some (m1, r1) → matchCI p2 r1 = some (m2, r2) →
      matchCI (p1 ++ p2) l = some (m1 ++ m2, r2) := by
  induction p1 with
  | nil =>
    intro l m1 r1 m2 r2 h1 h2
    rw [matchCI] at h1
    injection h1 with h'
    injection h' with ha hb
    subst ha; subst hb
    rw [List.nil_append, List.nil_append]
    exact h2
  | cons q ps ih =>
    intro l m1 r1 m2 r2 h1 h2
    obtain ⟨c, cs, m', hl, hq, hm, hrest⟩ := matchCI_cons_inv q ps l m1 r1 h1
    subst hl; subst hm
    rw [List.cons_append, List.cons_append, matchCI, if_pos hq, ih cs m' r1 m2 r2 hrest h2]

theorem matchCI_transfer (p : List Char) (hp : ∀ q ∈ p, isPySpace q = false) :
    ∀ f l m r, l.length ≤ f → matchCI p (subAux f l) = some (m, r) →
      ∃ l2 f2, matchCI p l = some (m, l2) ∧ r = subAux f2 l2 ∧ l2.length ≤ f2 := by
  induction p with
  | nil =>
    intro f l m r hf h
    rw [matchCI] at h
    injection h with h'
    injection h' with h1 h2
    subst h1
    subst h2
    exact ⟨l, f, rfl, rfl, hf⟩
  | cons q ps ih =>
    intro f l m r hf h
    obtain ⟨c, cs, m', hout, hq, hm, hrest⟩ := matchCI_cons_inv q ps (subAux f l) m r h
    have hcns : isPySpace c = false := by
      rw [← isPySpace_lowerAscii, hq]
      exact hp q (List.mem_cons_self _ _)
    obtain ⟨l', f', hl, hcs, hf'⟩ := subAux_head_nonspace f l hf c cs hout hcns
    obtain ⟨l2, f2, hps, hr, hf2⟩ :=
      ih (fun q' hq' => hp q' (List.mem_cons_of_mem _ hq')) f' l' m' r hf' (hcs ▸ hrest)
    subst hl
    subst hm
    refine ⟨l2, f2, ?_, hr, hf2⟩
    rw [matchCI, if_pos hq, hps]

theorem spDigit_transfer : ∀ f l, l.length ≤ f → spDigit (subAux f l) = true →
    spDigit l = true := by
  intro f
  induction f with
  | zero =>
    intro l hf h
    exact h
  | succ f ih =>
    intro l hf h
    cases l with
    | nil => exact h
    | cons x xs =>
      cases hma : matchAt (x :: xs) with
      | some tr =>
        obtain ⟨g1, g2, rest⟩ := tr
        rw [subAux_cons_some f x xs g1 g2 rest hma] at h
        obtain ⟨c0, w, s, hg1, hspc, hws, _, _, _⟩ := matchAt_spec _ _ _ _ hma
        obtain ⟨ch, w', hw, hch⟩ := WordShape_head w hws
        rw [hg1, hw] at h
        simp only [List.cons_append, List.append_assoc] at h
        rw [spDigit_cons_space c0 _ hspc] at h
        have hchns : isPySpace ch = false := by
          rcases hch with hch | hch
          · exact isPySpace_eq_false_of_lower ch 'd' hch (by decide)
          · exact isPySpace_eq_false_of_lower ch 'g' hch (by decide)
        rw [spDigit_cons_nonspace ch _ hchns] at h
        have hchnd : isAsciiDigit ch = false := by
          rcases hch with hch | hch
          · exact isAsciiDigit_eq_false_of_lower ch 'd' hch (by decide)
          · exact isAsciiDigit_eq_false_of_lower ch 'g' hch (by decide)
        rw [hchnd] at h
        exact absurd h (fun hc => Bool.noConfusion hc)
      | none =>
        rw [subAux_cons_none f x xs hma] at h
        by_cases hx : isPySpace x = true
        · rw [spDigit_cons_space x _ hx] at h
          rw [spDigit_cons_space x xs hx]
          exact ih xs (by rw [List.length_cons] at hf; omega) h
        · have hxf : isPySpace x = false := by
            cases hb : isPySpace x
            · rfl
            · exact absurd hb hx
          rw [spDigit_cons_nonspace x _ hxf] at h
          rw [spDigit_cons_nonspace x xs hxf]
          exact h

theorem corrTok_inv (X : List Char) (pr : List Char × List Char)
    (h : corrTok X = some pr) :
    phaseNum X = some pr ∨ matchCI "ruby".data X = some pr ∨
    matchCI "sapphire".data X = some pr ∨ matchCI "emerald".data X = some pr ∨
    matchCI "black pearl".data X = some pr := by
  rw [corrTok] at h
  cases h0 : phaseNum X with
  | some pr0 =>
    rw [h0] at h
    injection h with h'
    subst h'
    exact Or.inl rfl
  | none =>
    rw [h0] at h
    cases h1 : matchCI "ruby".data X with
    | some pr1 =>
      rw [h1] at h
      injection h with h'
      subst h'
      exact Or.inr (Or.inl rfl)
    | none =>
      rw [h1] at h
      cases h2 : matchCI "sapphire".data X with
      | some pr2 =>
        rw [h2] at h
        injection h with h'
        subst h'
        exact Or.inr (Or.inr (Or.inl rfl))
      | none =>
        rw [h2] at h
        cases h3 : matchCI "emerald".data X with
        | some pr3 =>
          rw [h3] at h
          injection h with h'
          subst h'
          exact Or.inr (Or.inr (Or.inr (Or.inl rfl)))
        | none =>
          rw [h3] at h
          exact Or.inr (Or.inr (Or.inr (Or.inr h)))

theorem corrTok_transfer (f : Nat) (l : List Char) (hf : l.length ≤ f)
    (h : (corrTok (subAux f l)).isSome = true) : (corrTok l).isSome = true := by
  rw [Option.isSome_iff_exists] at h
  obtain ⟨pr, hpr⟩ := h
  obtain ⟨m, r⟩ := pr
  rcases corrTok_inv _ _ hpr with hc | hc | hc | hc | hc
  · obtain ⟨m0, r0, hm, hsd⟩ := phaseNum_inv _ _ hc
    obtain ⟨l2, f2, hml, hr0, hf2⟩ := matchCI_transfer phaseW (by decide) f l m0 r0 hf hm
    have hsd2 : spDigit l2 = true := spDigit_transfer f2 l2 hf2 (hr0 ▸ hsd)
    exact (corrTok_isSome_iff l).mpr (Or.inl (phaseNum_isSome_intro l m0 l2 hml hsd2))
  · obtain ⟨l2, f2, hml, _, _⟩ := matchCI_transfer "ruby".data (by decide) f l m r hf hc
    exact (corrTok_isSome_iff l).mpr (Or.inr (Or.inl (by rw [hml]; rfl)))
  · obtain ⟨l2, f2, hml, _, _⟩ := matchCI_transfer "sapphire".data (by decide) f l m r hf hc
    exact (corrTok_isSome_iff l).mpr (Or.inr (Or.inr (Or.inl (by rw [hml]; rfl))))
  · obtain ⟨l2, f2, hml, _, _⟩ := matchCI_transfer "emerald".data (by decide) f l m r hf hc
    exact (corrTok_isSome_iff l).mpr (Or.inr (Or.inr (Or.inr (Or.inl (by rw [hml]; rfl)))))
  · rw [show "black pearl".data = "black".data ++ (' ' :: "pearl".data) from rfl] at hc
    obtain ⟨m1, m2, r1, hb1, hb2, hm12⟩ := matchCI_append _ _ _ _ _ hc
    obtain ⟨l2, f2, hbl, hr1, hf2⟩ := matchCI_transfer "black".data (by decide) f l m1 r1 hf hb1
    obtain ⟨c, cs, m2', hr1c, hlc, hm2, hrest⟩ := matchCI_cons_inv ' ' _ r1 m2 r hb2
    have hcsp : c = ' ' := eq_space_of_lower_eq_space c hlc
    subst hcsp
    have hsub : subAux f2 l2 = ' ' :: cs := by rw [← hr1, hr1c]
    rcases subAux_head_space f2 l2 hf2 ' ' cs hsub with
      ⟨l3, f3, hl2, _, hcs, hf3⟩ | ⟨w', g2', rest', f', hma', hcs, hf', hws', _⟩
    · obtain ⟨l4, f4, hpl, _, _⟩ :=
        matchCI_transfer "pearl".data (by decide) f3 l3 m2' r hf3 (hcs ▸ hrest)
      have hsp : matchCI (' ' :: "pearl".data) (' ' :: l3) = some (' ' :: m2', l4) := by
        rw [matchCI, if_pos (by decide : lowerAscii ' ' = ' '), hpl]
      have hfull :=
        matchCI_append_intro "black".data (' ' :: "pearl".data) l m1 l2 (' ' :: m2') l4
          hbl (by rw [hl2]; exact hsp)
      refine (corrTok_isSome_iff l).mpr (Or.inr (Or.inr (Or.inr (Or.inr ?_))))
      rw [show "black pearl".data = "black".data ++ (' ' :: "pearl".data) from rfl, hfull]
      rfl
    · obtain ⟨chh, w'', hw', hch⟩ := WordShape_head w' hws'
      rw [hcs, hw'] at hrest
      simp only [List.cons_append, List.append_assoc] at hrest
      rw [matchCI_none_of_head_ne 'p' _ chh _
        (by rcases hch with hch | hch <;> rw [hch] <;> decide)] at hrest
      exact absurd hrest (fun hcn => Option.noConfusion hcn)

theorem matchCI_word_none (word : List Char) (q : Char) (ps : List Char)
    (hword : word = q :: ps) (c : Char) (l : List Char) (h : lowerAscii c ≠ q) :
    matchCI word (c :: l) = none := by
  rw [hword]
  exact matchCI_none_of_head_ne q ps c l h

theorem chainB_transfer (f : Nat) (l : List Char) (hf : l.length ≤ f)
    (h : chainB (subAux f l) = true) : chainB l = true := by
  obtain ⟨w, s, r2, hda, hs, hct⟩ := (chainB_eq_true_iff _).mp h
  rcases dopplerAlt_inv _ _ hda with hd | ⟨hdn, hg⟩
  · obtain ⟨l2, f2, hdl, hr, hf2⟩ := matchCI_transfer dopplerW (by decide) f l w (s :: r2) hf hd
    rcases subAux_head_space f2 l2 hf2 s r2 hr.symm with
      ⟨l3, f3, hl2, _, hr2, hf3⟩ | ⟨w', g2', rest', f', hma', hr2, hf', hws', _⟩
    · have hct2 : (corrTok l3).isSome = true := corrTok_transfer f3 l3 hf3 (hr2 ▸ hct)
      rw [hl2] at hdl
      exact (chainB_eq_true_iff l).mpr
        ⟨w, s, l3, dopplerAlt_intro_doppler l (w, s :: l3) hdl, hs, hct2⟩
    · obtain ⟨chh, w'', hw', hch⟩ := WordShape_head w' hws'
      rw [hr2, hw'] at hct
      simp only [List.cons_append, List.append_assoc] at hct
      rw [corrTok_none_of_head chh _
        (by rcases hch with hch | hch <;> rw [hch] <;> decide)
        (by rcases hch with hch | hch <;> rw [hch] <;> decide)
        (by rcases hch with hch | hch <;> rw [hch] <;> decide)
        (by rcases hch with hch | hch <;> rw [hch] <;> decide)
        (by rcases hch with hch | hch <;> rw [hch] <;> decide)] at hct
      exact absurd hct (fun hcn => Bool.noConfusion hcn)
  · rw [show gammaW = "gamma".data ++ (' ' :: dopplerW) from rfl] at hg
    obtain ⟨m1, m2, r1, hb1, hb2, hm12⟩ := matchCI_append _ _ _ _ _ hg
    obtain ⟨l2, f2, hgl, hr1, hf2⟩ := matchCI_transfer "gamma".data (by decide) f l m1 r1 hf hb1
    obtain ⟨c, cs, m2', hr1c, hlc, hm2, hrest⟩ := matchCI_cons_inv ' ' _ r1 m2 (s :: r2) hb2
    have hcsp : c = ' ' := eq_space_of_lower_eq_space c hlc
    subst hcsp
    have hsub : subAux f2 l2 = ' ' :: cs := by rw [← hr1, hr1c]
    rcases subAux_head_space f2 l2 hf2 ' ' cs hsub with
      ⟨l3, f3, hl2, _, hcs3, hf3⟩ | ⟨w', g2', rest', f', hma', hcs3, hf', hws', _⟩
    · obtain ⟨l4, f4, hdl3, hr4, hf4⟩ :=
        matchCI_transfer dopplerW (by decide) f3 l3 m2' (s :: r2) hf3 (hcs3 ▸ hrest)
      rcases subAux_head_space f4 l4 hf4 s r2 hr4.symm with
        ⟨l5, f5, hl4, _, hr5, hf5⟩ | ⟨w5, g25, rest5, f5, hma5, hr5, hf5, hws5, _⟩
      · have hct2 : (corrTok l5).isSome = true := corrTok_transfer f5 l5 hf5 (hr5 ▸ hct)
        have hgl' : matchCI ('g' :: "amma".data) l = some (m1, l2) := by
          rw [show ('g' :: "amma".data) = "gamma".data from rfl]
          exact hgl
        obtain ⟨c1, cs1, m1', hl1, hq1, hm1', hrest1⟩ :=
          matchCI_cons_inv 'g' "amma".data l m1 l2 hgl'
        have hdnl : matchCI dopplerW l = none := by
          rw [hl1]
          exact matchCI_word_none dopplerW 'd' "oppler".data rfl c1 cs1 (by rw [hq1]; decide)
        have hgfull : matchCI gammaW l = some (m1 ++ ' ' :: m2', s :: l5) := by
          rw [show gammaW = "gamma".data ++ (' ' :: dopplerW) from rfl]
          refine matchCI_append_intro _ _ l m1 l2 (' ' :: m2') (s :: l5) hgl ?_
          rw [hl2]
          rw [matchCI, if_pos (by decide : lowerAscii ' ' = ' ')]
          rw [hl4] at hdl3
          rw [hdl3]
        exact (chainB_eq_true_iff l).mpr
          ⟨m1 ++ ' ' :: m2', s, l5, dopplerAlt_intro_gamma l _ hdnl hgfull, hs, hct2⟩
      · obtain ⟨chh, w'', hw5, hch⟩ := WordShape_head w5 hws5
        rw [hr5, hw5] at hct
        simp only [List.cons_append, List.append_assoc] at hct
        rw [corrTok_none_of_head chh _
          (by rcases hch with hch | hch <;> rw [hch] <;> decide)
          (by rcases hch with hch | hch <;> rw [hch] <;> decide)
          (by rcases hch with hch | hch <;> rw [hch] <;> decide)
          (by rcases hch with hch | hch <;> rw [hch] <;> decide)
          (by rcases hch with hch | hch <;> rw [hch] <;> decide)] at hct
        exact absurd hct (fun hcn => Bool.noConfusion hcn)
    · rcases hws' with hwd | hwg
      · have hcseq : cs = w' ++ (' ' :: '-' :: ' ' :: (g2' ++ subAux f' rest')) := by
          rw [hcs3]
          simp
        have hdet := matchCI_complete dopplerW w' (' ' :: '-' :: ' ' :: (g2' ++ subAux f' rest')) hwd
        rw [hcseq, hdet] at hrest
        injection hrest with h'
        injection h' with ha hb
        injection hb with hb1 hb2
        rw [← hb2] at hct
        rw [corrTok_none_of_head '-' _ (by decide) (by decide) (by decide) (by decide)
          (by decide)] at hct
        exact absurd hct (fun hcn => Bool.noConfusion hcn)
      · cases w' with
        | nil => exact absurd hwg (by simp [gammaW])
        | cons chh w'' =>
          rw [List.map_cons] at hwg
          rw [show gammaW = 'g' :: "amma doppler".data from rfl] at hwg
          injection hwg with hq hw2
          rw [hcs3] at hrest
          simp only [List.cons_append, List.append_assoc] at hrest
          rw [matchCI_word_none dopplerW 'd' "oppler".data rfl chh _ (by rw [hq]; decide)]
            at hrest
          exact absurd hrest (fun hcn => Option.noConfusion hcn)

theorem noMatchB_append (a t : List Char) :
    noMatchB (a ++ t) = (noMatchBA a t && noMatchB t) := by
  induction a with
  | nil => rw [List.nil_append, noMatchBA, Bool.true_and]
  | cons c cs ih =>
    rw [List.cons_append, noMatchB, noMatchBA, ih, Bool.and_assoc]

theorem noMatchBA_append (a b t : List Char) :
    noMatchBA (a ++ b) t = (noMatchBA a (b ++ t) && noMatchBA b t) := by
  induction a with
  | nil => rw [List.nil_append, noMatchBA, Bool.true_and]
  | cons c cs ih =>
    rw [List.cons_append, noMatchBA, noMatchBA, ih, Bool.and_assoc]
    rw [List.append_assoc]

theorem chainB_of_dopplerAlt_none (X : List Char) (h : dopplerAlt X = none) :
    chainB X = false := by
  rw [chainB, h]

theorem chainB_head_not_dg (x : Char) (X : List Char)
    (h1 : lowerAscii x ≠ 'd') (h2 : lowerAscii x ≠ 'g') : chainB (x :: X) = false :=
  chainB_of_dopplerAlt_none _ (dopplerAlt_none_of_head x X h1 h2)

theorem chainB_nil : chainB [] = false :=
  chainB_of_dopplerAlt_none _ dopplerAlt_nil

theorem lower_ne_of_space (x : Char) (hx : isPySpace x = true) (y : Char)
    (hy : isPySpace y = false) : lowerAscii x ≠ y := by
  intro hxy
  rw [← isPySpace_lowerAscii, hxy, hy] at hx
  exact Bool.noConfusion hx

theorem lower_ne_of_digit (x : Char) (hx : isAsciiDigit x = true) (y : Char)
    (hy : isAsciiDigit y = false) : lowerAscii x ≠ y := by
  intro hxy
  rw [← isAsciiDigit_lowerAscii, hxy, hy] at hx
  exact Bool.noConfusion hx

theorem matchAt_cons_none_of_chainB (c : Char) (X : List Char) (h : chainB X = false) :
    matchAt (c :: X) = none := by
  by_cases hc : isPySpace c = true
  · exact (matchAt_cons_none_iff c X hc).mpr h
  · exact matchAt_none_of_head c X (by
      cases hb : isPySpace c
      · rfl
      · exact absurd hb hc)

theorem nonspace_of_map_lower (m p : List Char) (hm : m.map lowerAscii = p)
    (hp : ∀ q ∈ p, isPySpace q = false) : ∀ c ∈ m, isPySpace c = false := by
  intro c hc
  rw [← isPySpace_lowerAscii]
  exact hp _ (hm ▸ List.mem_map_of_mem lowerAscii hc)

theorem noMatchBA_nonspace (a : List Char) (t : List Char)
    (h : ∀ c ∈ a, isPySpace c = false) : noMatchBA a t = true := by
  induction a with
  | nil => rfl
  | cons c cs ih =>
    rw [noMatchBA, Bool.and_eq_true]
    exact ⟨by rw [matchAt_none_of_head _ _ (h c (List.mem_cons_self _ _))]; rfl,
      ih fun c' hc' => h c' (List.mem_cons_of_mem _ hc')⟩

theorem map_lower_split_space (p1 p2 : List Char) :
    ∀ m, m.map lowerAscii = p1 ++ ' ' :: p2 →
      ∃ a b, m = a ++ ' ' :: b ∧ a.map lowerAscii = p1 ∧ b.map lowerAscii = p2 := by
  induction p1 with
  | nil =>
    intro m hm
    cases m with
    | nil => simp at hm
    | cons c m' =>
      rw [List.map_cons, List.nil_append] at hm
      injection hm with h1 h2
      refine ⟨[], m', ?_, rfl, h2⟩
      rw [List.nil_append, eq_space_of_lower_eq_space c h1]
  | cons q p1' ih =>
    intro m hm
    cases m with
    | nil => simp at hm
    | cons c m' =>
      rw [List.map_cons, List.cons_append] at hm
      injection hm with h1 h2
      obtain ⟨a, b, hm', ha, hb⟩ := ih m' h2
      refine ⟨c :: a, b, ?_, ?_, hb⟩
      · rw [hm', List.cons_append]
      · rw [List.map_cons, ha, h1]

theorem chainB_word_sep_false (w Y : List Char) (hw : WordShape w) :
    chainB (w ++ ' ' :: '-' :: ' ' :: Y) = false := by
  rcases hw with hw | hw
  · have hda : dopplerAlt (w ++ ' ' :: '-' :: ' ' :: Y) =
        some (w, ' ' :: '-' :: ' ' :: Y) :=
      dopplerAlt_intro_doppler _ _ (matchCI_complete dopplerW w _ hw)
    rw [chainB, hda]
    dsimp only
    rw [corrTok_none_of_head '-' _ (by decide) (by decide) (by decide) (by decide)
      (by decide)]
    simp
  · cases w with
    | nil => exact absurd hw (by simp [gammaW])
    | cons chh w' =>
      have hq : lowerAscii chh = 'g' := by
        have hw2 := hw
        rw [List.map_cons, show gammaW = 'g' :: "amma doppler".data from rfl] at hw2
        exact (List.cons_eq_cons.mp hw2).1
      have hdn : matchCI dopplerW ((chh :: w') ++ ' ' :: '-' :: ' ' :: Y) = none := by
        rw [List.cons_append]
        exact matchCI_word_none dopplerW 'd' "oppler".data rfl chh _ (by rw [hq]; decide)
      have hda := dopplerAlt_intro_gamma _ ((chh :: w'), ' ' :: '-' :: ' ' :: Y) hdn
        (matchCI_complete gammaW (chh :: w') _ hw)
      rw [chainB, hda]
      dsimp only
      rw [corrTok_none_of_head '-' _ (by decide) (by decide) (by decide) (by decide)
        (by decide)]
      simp

theorem chainB_tok_false (g2 t : List Char) (hg2 : TokShape g2) :
    chainB (g2 ++ t) = false := by
  obtain ⟨ch, g2', hg, hch⟩ := TokShape_head g2 hg2
  rw [hg, List.cons_append]
  refine chainB_head_not_dg ch _ ?_ ?_
  · rcases hch with h | h | h | h | h <;> rw [h] <;> decide
  · rcases hch with h | h | h | h | h <;> rw [h] <;> decide

theorem isPySpace_eq_false_of_digit (d : Char) (hd : isAsciiDigit d = true) :
    isPySpace d = false := by
  cases hb : isPySpace d
  · rfl
  · exfalso
    rw [isAsciiDigit, decide_eq_true_iff] at hd
    rw [isPySpace, decide_eq_true_iff] at hb
    have : ∀ n ∈ pySpaceNats, ¬(48 ≤ n ∧ n ≤ 57) := by decide
    exact this d.toNat hb hd

theorem noMatchBA_spaces (sp : List Char) (d : Char) (t : List Char)
    (hsp : ∀ c ∈ sp, isPySpace c = true) (hd : isAsciiDigit d = true) :
    noMatchBA sp (d :: t) = true := by
  induction sp with
  | nil => rfl
  | cons s sp' ih =>
    rw [noMatchBA, Bool.and_eq_true]
    constructor
    · rw [matchAt_cons_none_of_chainB s _ ?hch]
      · rfl
      case hch =>
        cases hsp' : sp' with
        | nil =>
          rw [List.nil_append]
          exact chainB_head_not_dg d t (lower_ne_of_digit d hd 'd' (by decide))
            (lower_ne_of_digit d hd 'g' (by decide))
        | cons s2 sp'' =>
          have hs2 : isPySpace s2 = true :=
            hsp s2 (by rw [hsp']; exact List.mem_cons_of_mem _ (List.mem_cons_self _ _))
          exact chainB_head_not_dg s2 _ (lower_ne_of_space s2 hs2 'd' (by decide))
            (lower_ne_of_space s2 hs2 'g' (by decide))
    · exact ih fun c hc => hsp c (List.mem_cons_of_mem _ hc)

theorem noMatchBA_tok (g2 t : List Char) (hg2 : TokShape g2) :
    noMatchBA g2 t = true := by
  rcases hg2 with ⟨m, sp, d, hg, hm, hsp, hd⟩ | h | h | h | h
  · subst hg
    rw [List.append_assoc m sp [d], noMatchBA_append m (sp ++ [d]) t, Bool.and_eq_true]
    constructor
    · exact noMatchBA_nonspace m _ (nonspace_of_map_lower m phaseW hm (by decide))
    · rw [noMatchBA_append sp [d] t, Bool.and_eq_true]
      constructor
      · rw [show ([d] ++ t) = d :: t from rfl]
        exact noMatchBA_spaces sp d t hsp hd
      · refine noMatchBA_nonspace [d] t ?_
        intro c hc
        rw [List.mem_singleton] at hc
        subst hc
        exact isPySpace_eq_false_of_digit c hd
  · exact noMatchBA_nonspace g2 t (nonspace_of_map_lower _ _ h (by decide))
  · exact noMatchBA_nonspace g2 t (nonspace_of_map_lower _ _ h (by decide))
  · exact noMatchBA_nonspace g2 t (nonspace_of_map_lower _ _ h (by decide))
  · obtain ⟨a, b, hg, ha, hb⟩ := map_lower_split_space "black".data "pearl".data g2
      (by rw [show ("black".data ++ ' ' :: "pearl".data) = "black pearl".data from rfl]
          exact h)
    subst hg
    rw [noMatchBA_append a (' ' :: b) t, Bool.and_eq_true]
    constructor
    · exact noMatchBA_nonspace a _ (nonspace_of_map_lower _ _ ha (by decide))
    · rw [noMatchBA, Bool.and_eq_true]
      constructor
      · rw [matchAt_cons_none_of_chainB ' ' _ ?hbp]
        · rfl
        case hbp =>
          cases b with
          | nil => exact absurd hb (by simp)
          | cons ch b' =>
            rw [List.map_cons] at hb
            rw [show "pearl".data = 'p' :: "earl".data from rfl] at hb
            have hchp := (List.cons_eq_cons.mp hb).1
            rw [List.cons_append]
            exact chainB_head_not_dg ch _ (by rw [hchp]; decide) (by rw [hchp]; decide)
      · exact noMatchBA_nonspace b t (nonspace_of_map_lower _ _ hb (by decide))

theorem noMatchBA_word (w Y : List Char) (hw : WordShape w) :
    noMatchBA w (' ' :: '-' :: ' ' :: Y) = true := by
  rcases hw with hw | hw
  · exact noMatchBA_nonspace w _ (nonspace_of_map_lower _ _ hw (by decide))
  · obtain ⟨a, b, hsplit, ha, hb⟩ := map_lower_split_space "gamma".data dopplerW w
      (by rw [show ("gamma".data ++ ' ' :: dopplerW) = gammaW from rfl]
          exact hw)
    subst hsplit
    rw [noMatchBA_append a (' ' :: b) _, Bool.and_eq_true]
    constructor
    · exact noMatchBA_nonspace a _ (nonspace_of_map_lower _ _ ha (by decide))
    · rw [noMatchBA, Bool.and_eq_true]
      constructor
      · rw [matchAt_cons_none_of_chainB ' ' _ (chainB_word_sep_false b Y (Or.inl hb))]
        rfl
      · exact noMatchBA_nonspace b _ (nonspace_of_map_lower _ _ hb (by decide))

theorem segNoMatch (c0 : Char) (w g2 t : List Char)
    (_hc0 : isPySpace c0 = true) (hw : WordShape w) (hg2 : TokShape g2) :
    noMatchBA ((c0 :: w) ++ (' ' :: '-' :: ' ' :: []) ++ g2) t = true := by
  rw [List.append_assoc (c0 :: w) (' ' :: '-' :: ' ' :: []) g2,
    noMatchBA_append (c0 :: w) ((' ' :: '-' :: ' ' :: []) ++ g2) t, Bool.and_eq_true]
  constructor
  · rw [noMatchBA, Bool.and_eq_true]
    constructor
    · rw [matchAt_cons_none_of_chainB c0 _ ?hcw]
      · rfl
      case hcw =>
        rw [show w ++ (((' ' :: '-' :: ' ' :: []) ++ g2) ++ t) =
            w ++ ' ' :: '-' :: ' ' :: (g2 ++ t) by simp]
        exact chainB_word_sep_false w (g2 ++ t) hw
    · rw [show ((' ' :: '-' :: ' ' :: []) ++ g2) ++ t =
          ' ' :: '-' :: ' ' :: (g2 ++ t) by simp]
      exact noMatchBA_word w (g2 ++ t) hw
  · rw [noMatchBA_append (' ' :: '-' :: ' ' :: []) g2 t, Bool.and_eq_true]
    constructor
    · rw [noMatchBA, Bool.and_eq_true]
      constructor
      · rw [matchAt_cons_none_of_chainB ' ' _ ?hdash]
        · rfl
        case hdash =>
          rw [show ('-' :: ' ' :: []) ++ (g2 ++ t) = '-' :: ' ' :: (g2 ++ t) from rfl]
          exact chainB_head_not_dg '-' _ (by decide) (by decide)
      · rw [noMatchBA, Bool.and_eq_true]
        constructor
        · rw [show (' ' :: []) ++ (g2 ++ t) = ' ' :: (g2 ++ t) from rfl]
          rw [matchAt_none_of_head '-' _ (by decide)]
          rfl
        · rw [noMatchBA, Bool.and_eq_true]
          refine ⟨?_, rfl⟩
          rw [show ([] : List Char) ++ (g2 ++ t) = g2 ++ t from rfl]
          rw [matchAt_cons_none_of_chainB ' ' _ (chainB_tok_false g2 t hg2)]
          rfl
    · exact noMatchBA_tok g2 t hg2

theorem noMatchB_subAux : ∀ f l, l.length ≤ f → noMatchB (subAux f l) = true := by
  intro f
  induction f with
  | zero =>
    intro l hf
    have hnil : l = [] := List.length_eq_zero.mp (Nat.le_zero.mp hf)
    subst hnil
    rfl
  | succ f ih =>
    intro l hf
    cases l with
    | nil => rw [subAux_nil]; rfl
    | cons c cs =>
      have hcs : cs.length ≤ f := by
        rw [List.length_cons] at hf; omega
      cases hma : matchAt (c :: cs) with
      | none =>
        rw [subAux_cons_none f c cs hma, noMatchB, Bool.and_eq_true]
        constructor
        · by_cases hc : isPySpace c = true
          · have hchain : chainB cs = false := (matchAt_cons_none_iff c cs hc).mp hma
            have hchain2 : chainB (subAux f cs) = false := by
              cases hb : chainB (subAux f cs)
              · rfl
              · rw [chainB_transfer f cs hcs hb] at hchain
                exact absurd hchain (fun hcc => Bool.noConfusion hcc)
            rw [(matchAt_cons_none_iff c (subAux f cs) hc).mpr hchain2]
            rfl
          · rw [matchAt_none_of_head c _ (Bool.eq_false_iff.mpr hc)]
            rfl
        · exact ih cs hcs
      | some tr =>
        obtain ⟨g1, g2, rest⟩ := tr
        rw [subAux_cons_some f c cs g1 g2 rest hma]
        obtain ⟨c0, w, s, hg1, hc0, hws, _, _, hts⟩ := matchAt_spec _ _ _ _ hma
        have hrest : rest.length ≤ f := by
          have hlt := matchAt_length _ _ _ _ hma
          rw [List.length_cons] at hlt
          omega
        rw [noMatchB_append, Bool.and_eq_true]
        constructor
        · rw [hg1]
          exact segNoMatch c0 w g2 _ hc0 hws hts
        · exact ih rest hrest

theorem subAux_of_noMatchB : ∀ f l, noMatchB l = true → subAux f l = l := by
  intro f
  induction f with
  | zero => intro l _; rfl
  | succ f ih =>
    intro l h
    cases l with
    | nil => rfl
    | cons c cs =>
      rw [noMatchB, Bool.and_eq_true] at h
      have hma : matchAt (c :: cs) = none := by
        cases hm : matchAt (c :: cs) with
        | none => rfl
        | some tr =>
          rw [hm] at h
          exact absurd h.1 (fun hcc => Bool.noConfusion hcc)
      rw [subAux_cons_none f c cs hma, ih cs h.2]

/-- C8.  The separator correction maps "Knife Doppler Phase 2" to
"Knife Doppler - Phase 2", and it is idempotent on every string:
`correctSeparator (correctSeparator s) = correctSeparator s`, so lookups are
identical whether the caller supplied the corrected or uncorrected form. -/
theorem correctSeparator_idempotent :
    correctSeparator "Knife Doppler Phase 2" = "Knife Doppler - Phase 2" ∧
    ∀ s : String, correctSeparator (correctSeparator s) = correctSeparator s := by
  constructor
  · rfl
  · intro s
    simp only [correctSeparator]
    have hnm : noMatchB (subAux s.data.length s.data) = true :=
      noMatchB_subAux s.data.length s.data le_rfl
    congr 1
    exact subAux_of_noMatchB _ _ hnm

theorem detTok_spec (l g r : List Char)
    (h : detTok l = some (g, r)) : l = g ++ r ∧ DetShape g := by
  rw [detTok] at h
  cases hp : phaseNum l with
  | some pr =>
    rw [hp] at h
    injection h with h'
    subst h'
    obtain ⟨hl, hsh⟩ := phaseNum_spec l g r hp
    exact ⟨hl, Or.inl hsh⟩
  | none =>
    rw [hp] at h
    cases h1 : matchCI "ruby".data l with
    | some pr =>
      rw [h1] at h
      injection h with h'
      subst h'
      obtain ⟨hl, hm⟩ := matchCI_spec _ l g r h1
      exact ⟨hl, Or.inr (Or.inl hm)⟩
    | none =>
      rw [h1] at h
      cases h2 : matchCI "sapphire".data l with
      | some pr =>
        rw [h2] at h
        injection h with h'
        subst h'
        obtain ⟨hl, hm⟩ := matchCI_spec _ l g r h2
        exact ⟨hl, Or.inr (Or.inr (Or.inl hm))⟩
      | none =>
        rw [h2] at h
        obtain ⟨hl, hm⟩ := matchCI_spec _ l g r h
        exact ⟨hl, Or.inr (Or.inr (Or.inr hm))⟩

theorem DetShape_rev (g : List Char) (h : DetShape g) :
    ∃ c t, (g.map lowerAscii).reverse = c :: t ∧
      (isAsciiDigit c = true ∨ c = 'y' ∨ c = 'e' ∨ c = 'l') := by
  rcases h with ⟨m, sp, d, hg, _, _, hd⟩ | h | h | h
  · refine ⟨lowerAscii d, (sp.map lowerAscii).reverse ++ (m.map lowerAscii).reverse,
      ?_, Or.inl (by rw [isAsciiDigit_lowerAscii]; exact hd)⟩
    rw [hg]
    simp
  · exact ⟨'y', ['b', 'u', 'r'], by rw [h]; rfl, Or.inr (Or.inl rfl)⟩
  · exact ⟨'e', 'r' :: ['i', 'h', 'p', 'p', 'a', 's'], by rw [h]; rfl,
      Or.inr (Or.inr (Or.inl rfl))⟩
  · exact ⟨'l', 'r' :: ['a', 'e', 'p', ' ', 'k', 'c', 'a', 'l', 'b'], by rw [h]; rfl,
      Or.inr (Or.inr (Or.inr rfl))⟩

theorem rev_suffix_head {α β : Type} (f : α → β) (A B : List α) (c : β) (t : List β)
    (h : (B.map f).reverse = c :: t) :
    ∃ t', ((A ++ B).map f).reverse = c :: t' := by
  refine ⟨t ++ (A.map f).reverse, ?_⟩
  rw [List.map_append, List.reverse_append, h, List.cons_append]

theorem sepTokEnd_rev (m tok : List Char) (h : sepTokEnd m = some tok) :
    ∃ c t, (m.map lowerAscii).reverse = c :: t ∧
      (isAsciiDigit c = true ∨ c = 'y' ∨ c = 'e' ∨ c = 'l') := by
  rw [sepTokEnd] at h
  split at h
  case h_2 => exact absurd h (fun hc => Option.noConfusion hc)
  case h_1 l2 heq =>
    split at h
    case h_2 => exact absurd h (fun hc => Option.noConfusion hc)
    case h_1 tok0 rest heq2 =>
      split at h
      case isFalse => exact absurd h (fun hc => Option.noConfusion hc)
      case isTrue hrest =>
        obtain ⟨hld, hshape⟩ := detTok_spec _ _ _ heq2
        rw [hrest, List.append_nil] at hld
        obtain ⟨c, t, hrev, hc⟩ := DetShape_rev tok0 hshape
        have hm2 : m = (m.takeWhile isPySpace ++ '-' :: l2.takeWhile isPySpace) ++ tok0 := by
          conv_lhs => rw [← List.takeWhile_append_dropWhile isPySpace m]
          rw [heq]
          conv_lhs => rw [← List.takeWhile_append_dropWhile isPySpace l2]
          rw [hld]
          simp
        obtain ⟨t', ht'⟩ := rev_suffix_head lowerAscii _ tok0 c t hrev
        rw [hm2]
        exact ⟨c, t', ht', hc⟩

theorem tryAt_rev (l : List Char) (j : Nat) (b tok : List Char)
    (h : tryAt l j = some (b, tok)) :
    ∃ c t, (l.map lowerAscii).reverse = c :: t ∧
      (isAsciiDigit c = true ∨ c = 'y' ∨ c = 'e' ∨ c = 'l') := by
  rw [tryAt] at h
  split at h
  · exact absurd h (fun hc => Option.noConfusion hc)
  · split at h
    case h_2 => exact absurd h (fun hc => Option.noConfusion hc)
    case h_1 tok0 heq =>
      obtain ⟨c, t, hrev, hc⟩ := sepTokEnd_rev _ _ heq
      obtain ⟨t', ht'⟩ := rev_suffix_head lowerAscii (l.take j) (l.drop j) c t hrev
      rw [List.take_append_drop] at ht'
      exact ⟨c, t', ht', hc⟩

theorem detectAux_rev (l : List Char) :
    ∀ j b tok, detectAux l j = some (b, tok) →
    ∃ c t, (l.map lowerAscii).reverse = c :: t ∧
      (isAsciiDigit c = true ∨ c = 'y' ∨ c = 'e' ∨ c = 'l') := by
  intro j
  induction j with
  | zero =>
    intro b tok h
    rw [detectAux] at h
    exact tryAt_rev l 0 b tok h
  | succ j ih =>
    intro b tok h
    rw [detectAux] at h
    cases htry : tryAt l (j + 1) with
    | some r =>
      rw [htry] at h
      injection h with h'
      rw [h'] at htry
      exact tryAt_rev l (j + 1) b tok htry
    | none =>
      rw [htry] at h
      exact ih b tok h

theorem phaseDetect_none_of_last (l : List Char) (c : Char) (t : List Char)
    (hrev : (l.map lowerAscii).reverse = c :: t)
    (h1 : isAsciiDigit c = false) (h2 : c ≠ 'y') (h3 : c ≠ 'e') (h4 : c ≠ 'l') :
    phaseDetect l = none := by
  cases hp : phaseDetect l with
  | none => rfl
  | some pr =>
    obtain ⟨b, tok⟩ := pr
    obtain ⟨c', t', hrev', hc'⟩ := detectAux_rev l l.length b tok hp
    rw [hrev] at hrev'
    have hcc : c = c' := (List.cons_eq_cons.mp hrev').1
    subst hcc
    rcases hc' with h | h | h | h
    · rw [h] at h1; exact Bool.noConfusion h1
    · exact absurd h h2
    · exact absurd h h3
    · exact absurd h h4

theorem append_suffix_split {α : Type} (a b q S : List α) (h : a ++ b = q ++ S)
    (hlen : b.length ≤ S.length) : ∃ m, S = m ++ b ∧ a = q ++ m := by
  rcases List.append_eq_append_iff.mp h with ⟨a', h1, h2⟩ | ⟨c', h1, h2⟩
  · have hl := congrArg List.length h2
    rw [List.length_append] at hl
    have ha0 : a'.length = 0 := by omega
    have ha' : a' = [] := List.length_eq_zero.mp ha0
    subst ha'
    rw [List.nil_append] at h2
    rw [List.append_nil] at h1
    exact ⟨[], by rw [← h2, List.nil_append], by rw [h1, List.append_nil]⟩
  · exact ⟨c', h2, h1⟩

theorem adj_mem {α : Type} : ∀ (pre L : List α) (x y : α) (z : List α),
    L = pre ++ x :: y :: z → (x, y) ∈ L.zip L.tail := by
  intro pre
  induction pre with
  | nil =>
    intro L x y z h
    rw [List.nil_append] at h
    subst h
    rw [show ((x :: y :: z).zip (x :: y :: z).tail) = (x, y) :: ((y :: z).zip z) from rfl]
    exact List.mem_cons_self _ _
  | cons p pre' ih =>
    intro L x y z h
    subst h
    rw [List.cons_append]
    cases hM2 : pre' ++ x :: y :: z with
    | nil => exact absurd hM2 (by simp)
    | cons m0 M' =>
      rw [show ((p :: m0 :: M').zip (p :: m0 :: M').tail) =
        (p, m0) :: ((m0 :: M').zip M') from rfl]
      have hmem := ih (m0 :: M') x y z hM2.symm
      rw [show ((m0 :: M').zip (m0 :: M').tail) = (m0 :: M').zip M' from rfl] at hmem
      exact List.mem_cons_of_mem _ hmem

theorem TokShape_rev (g : List Char) (h : TokShape g) :
    ∃ c t, (g.map lowerAscii).reverse = c :: t ∧
      (isAsciiDigit c = true ∨
       c = 'y' ∨
       (c = 'e' ∧ ∃ u, t = 'r' :: u) ∨
       (c = 'l' ∧ ∃ u, t = 'r' :: u) ∨
       (c = 'd' ∧ (∃ u, t = 'l' :: u) ∧ g.map lowerAscii = "emerald".data)) := by
  rcases h with ⟨m, sp, d, hg, _, _, hd⟩ | h | h | h | h
  · refine ⟨lowerAscii d, (sp.map lowerAscii).reverse ++ (m.map lowerAscii).reverse,
      ?_, Or.inl (by rw [isAsciiDigit_lowerAscii]; exact hd)⟩
    rw [hg]
    simp
  · exact ⟨'y', ['b', 'u', 'r'], by rw [h]; rfl, Or.inr (Or.inl rfl)⟩
  · exact ⟨'e', 'r' :: ['i', 'h', 'p', 'p', 'a', 's'], by rw [h]; rfl,
      Or.inr (Or.inr (Or.inl ⟨rfl, ⟨_, rfl⟩⟩))⟩
  · exact ⟨'d', 'l' :: ['a', 'r', 'e', 'm', 'e'], by rw [h]; rfl,
      Or.inr (Or.inr (Or.inr (Or.inr ⟨rfl, ⟨['a', 'r', 'e', 'm', 'e'], rfl⟩, h⟩)))⟩
  · exact ⟨'l', 'r' :: ['a', 'e', 'p', ' ', 'k', 'c', 'a', 'l', 'b'], by rw [h]; rfl,
      Or.inr (Or.inr (Or.inr (Or.inl ⟨rfl, ⟨_, rfl⟩⟩)))⟩

theorem tok_suffix_determined (g1 : List Char) (s : Char) (g2 q m rest : List Char)
    (ham : g1 ++ s :: g2 = q ++ m)
    (hSm : ' ' :: "Doppler Emerald".data = m ++ rest)
    (hm1 : m ≠ [])
    (hts : TokShape g2) :
    rest = [] ∧ g2 = "Emerald".data := by
  have hc : (rest.map lowerAscii).reverse ++ (m.map lowerAscii).reverse =
      'd' :: tailDE := by
    have h0 := congrArg (fun l => (l.map lowerAscii).reverse) hSm
    simp only [List.map_append, List.reverse_append] at h0
    rw [show ((' ' :: "Doppler Emerald".data).map lowerAscii).reverse =
      'd' :: tailDE from by decide] at h0
    exact h0.symm
  have hrev : (g2.map lowerAscii).reverse ++ (lowerAscii s :: (g1.map lowerAscii).reverse) =
      (m.map lowerAscii).reverse ++ (q.map lowerAscii).reverse := by
    have h0 := congrArg (fun l => (l.map lowerAscii).reverse) ham
    simp only [List.map_append, List.map_cons, List.reverse_append, List.reverse_cons,
      List.append_assoc, List.singleton_append] at h0
    exact h0
  cases hv : (m.map lowerAscii).reverse with
  | nil =>
    exfalso
    rw [List.reverse_eq_nil_iff, List.map_eq_nil_iff] at hv
    exact hm1 hv
  | cons x v' =>
    rw [hv] at hrev hc
    rcases TokShape_rev g2 hts with ⟨c2, t2, hg2rev, hdisj⟩
    rw [hg2rev] at hrev
    simp only [List.cons_append] at hrev
    obtain ⟨hc2x, htl⟩ := List.cons_eq_cons.mp hrev
    cases rest with
    | nil =>
      simp only [List.map_nil, List.reverse_nil, List.nil_append] at hc
      rw [show ('d' :: tailDE) =
        'd' :: ['l', 'a', 'r', 'e', 'm', 'e', ' ', 'r', 'e', 'l', 'p', 'p', 'o', 'd', ' ']
        from rfl] at hc
      obtain ⟨hx, _⟩ := List.cons_eq_cons.mp hc
      refine ⟨rfl, ?_⟩
      rcases hdisj with h | h | ⟨h, _⟩ | ⟨h, _⟩ | ⟨_, _, hmap⟩
      · rw [hc2x, hx] at h
        exact absurd h (by decide)
      · rw [h, hx] at hc2x
        exact absurd hc2x (by decide)
      · rw [h, hx] at hc2x
        exact absurd hc2x (by decide)
      · rw [h, hx] at hc2x
        exact absurd hc2x (by decide)
      · rw [List.append_nil] at hSm
        rw [← hSm] at ham
        have hg2len : g2.length = 7 := by
          have hml := congrArg List.length hmap
          rw [List.length_map] at hml
          rw [hml]
          decide
        have ham2 : (g1 ++ [s]) ++ g2 = q ++ (' ' :: "Doppler Emerald".data) := by
          rw [← ham]
          simp
        obtain ⟨m2, hS2, _⟩ := append_suffix_split (g1 ++ [s]) g2 q _ ham2
          (by rw [hg2len]; decide)
        have hm2len : m2.length = 9 := by
          have hl2 := congrArg List.length hS2
          rw [List.length_append, hg2len] at hl2
          rw [show (' ' :: "Doppler Emerald".data).length = 16 from by decide] at hl2
          omega
        have hg2eq : g2 = (m2 ++ g2).drop m2.length := (List.drop_left m2 g2).symm
        rw [← hS2, hm2len] at hg2eq
        rw [hg2eq]
        decide
    | cons r0 rs =>
      exfalso
      have hpre : ((r0 :: rs).map lowerAscii).reverse ≠ [] := by simp
      obtain ⟨p0, pre2, hpe⟩ := List.exists_cons_of_ne_nil hpre
      rw [hpe, List.cons_append] at hc
      obtain ⟨_, hc2⟩ := List.cons_eq_cons.mp hc
      rcases hdisj with h | h | ⟨h, u, hu⟩ | ⟨h, u, hu⟩ | ⟨h, ⟨u, hu⟩, _⟩
      · have hxmem : x ∈ tailDE := by
          rw [← hc2]
          exact List.mem_append_right _ (List.mem_cons_self _ _)
        rw [hc2x] at h
        have hall : ∀ c ∈ tailDE, isAsciiDigit c = false := by decide
        rw [hall x hxmem] at h
        exact Bool.noConfusion h
      · have hxmem : x ∈ tailDE := by
          rw [← hc2]
          exact List.mem_append_right _ (List.mem_cons_self _ _)
        rw [h] at hc2x
        rw [← hc2x] at hxmem
        exact absurd hxmem (by decide)
      · cases v' with
        | nil =>
          have hlast : (pre2 ++ [x]).getLast? = some x := List.getLast?_concat _
          rw [hc2] at hlast
          rw [show (tailDE.getLast? : Option Char) = some ' ' from by decide] at hlast
          injection hlast with hx
          rw [h, ← hx] at hc2x
          exact absurd hc2x (by decide)
        | cons y v'' =>
          have hadj : (x, y) ∈ tailDE.zip tailDE.tail := adj_mem pre2 tailDE x y v'' hc2.symm
          rw [hu] at htl
          simp only [List.cons_append] at htl
          have hyr : 'r' = y := (List.cons_eq_cons.mp htl).1
          rw [h] at hc2x
          have hno : ∀ pr ∈ tailDE.zip tailDE.tail, ¬(pr.1 = 'e' ∧ pr.2 = 'r') := by decide
          exact hno (x, y) hadj ⟨hc2x.symm, hyr.symm⟩
      · cases v' with
        | nil =>
          have hlast : (pre2 ++ [x]).getLast? = some x := List.getLast?_concat _
          rw [hc2] at hlast
          rw [show (tailDE.getLast? : Option Char) = some ' ' from by decide] at hlast
          injection hlast with hx
          rw [h, ← hx] at hc2x
          exact absurd hc2x (by decide)
        | cons y v'' =>
          have hadj : (x, y) ∈ tailDE.zip tailDE.tail := adj_mem pre2 tailDE x y v'' hc2.symm
          rw [hu] at htl
          simp only [List.cons_append] at htl
          have hyr : 'r' = y := (List.cons_eq_cons.mp htl).1
          rw [h] at hc2x
          have hno : ∀ pr ∈ tailDE.zip tailDE.tail, ¬(pr.1 = 'l' ∧ pr.2 = 'r') := by decide
          exact hno (x, y) hadj ⟨hc2x.symm, hyr.symm⟩
      · cases v' with
        | nil =>
          have hlast : (pre2 ++ [x]).getLast? = some x := List.getLast?_concat _
          rw [hc2] at hlast
          rw [show (tailDE.getLast? : Option Char) = some ' ' from by decide] at hlast
          injection hlast with hx
          rw [h, ← hx] at hc2x
          exact absurd hc2x (by decide)
        | cons y v'' =>
          have hadj : (x, y) ∈ tailDE.zip tailDE.tail := adj_mem pre2 tailDE x y v'' hc2.symm
          rw [hu] at htl
          simp only [List.cons_append] at htl
          have hyr : 'l' = y := (List.cons_eq_cons.mp htl).1
          rw [h] at hc2x
          have hno : ∀ pr ∈ tailDE.zip tailDE.tail, ¬(pr.1 = 'd' ∧ pr.2 = 'l') := by decide
          exact hno (x, y) hadj ⟨hc2x.symm, hyr.symm⟩

theorem subAux_emerald : ∀ f l, l.length ≤ f →
    (∃ q, l = q ++ (' ' :: "Doppler Emerald".data)) →
    ∃ q', subAux f l = q' ++ (' ' :: '-' :: ' ' :: "Emerald".data) := by
  intro f
  induction f with
  | zero =>
    intro l hf hex
    obtain ⟨q, hq⟩ := hex
    have hnil : l = [] := List.length_eq_zero.mp (Nat.le_zero.mp hf)
    rw [hnil] at hq
    have := congrArg List.length hq
    simp at this
  | succ f ih =>
    intro l hf hex
    obtain ⟨q, hq⟩ := hex
    cases l with
    | nil =>
      have := congrArg List.length hq
      simp at this
    | cons x xs =>
      cases hma : matchAt (x :: xs) with
      | none =>
        cases q with
        | nil =>
          rw [List.nil_append] at hq
          obtain ⟨hx, hxs⟩ := List.cons_eq_cons.mp hq
          rw [hx, hxs] at hma
          exact absurd hma (by decide)
        | cons qh qt =>
          rw [List.cons_append] at hq
          obtain ⟨hx, hxs⟩ := List.cons_eq_cons.mp hq
          have hxl : xs.length ≤ f := by
            rw [List.length_cons] at hf; omega
          obtain ⟨q', hq'⟩ := ih xs hxl ⟨qt, hxs⟩
          refine ⟨x :: q', ?_⟩
          rw [subAux_cons_none f x xs hma, hq', List.cons_append]
      | some tr =>
        obtain ⟨g1, g2, rest⟩ := tr
        rw [subAux_cons_some f x xs g1 g2 rest hma]
        obtain ⟨c0, w, s, hg1, _, _, _, hl, hts⟩ := matchAt_spec _ _ _ _ hma
        have hrl : rest.length ≤ f := by
          have hlt := matchAt_length _ _ _ _ hma
          rw [List.length_cons] at hlt
          rw [List.length_cons] at hf
          omega
        have hsplit : (g1 ++ s :: g2) ++ rest = q ++ (' ' :: "Doppler Emerald".data) := by
          rw [← hq, hl]
          simp
        rcases List.append_eq_append_iff.mp hsplit with ⟨a', _, hrssuf⟩ | ⟨m, ham, hSm⟩
        · obtain ⟨q3, hq3⟩ := ih rest hrl ⟨a', hrssuf⟩
          refine ⟨g1 ++ (' ' :: '-' :: ' ' :: []) ++ g2 ++ q3, ?_⟩
          rw [hq3]
          simp
        · by_cases hm0 : m = []
          · rw [hm0, List.nil_append] at hSm
            obtain ⟨q3, hq3⟩ := ih rest hrl ⟨[], by rw [← hSm, List.nil_append]⟩
            refine ⟨g1 ++ (' ' :: '-' :: ' ' :: []) ++ g2 ++ q3, ?_⟩
            rw [hq3]
            simp
          · obtain ⟨hr0, hg2em⟩ := tok_suffix_determined g1 s g2 q m rest ham hSm hm0 hts
            rw [hr0, hg2em, subAux_nil]
            refine ⟨g1, ?_⟩
            simp

/-- C10.  The phase-detection pattern accepts "Phase <digit>", "Ruby",
"Sapphire" and "Black Pearl" but not "Emerald", while the separator
correction does insert " - " before "Emerald": for every name ending in a
Doppler-family token followed by "Emerald", phase detection fails, the
corrected full string (ending in " - Emerald") is looked up verbatim in the
market table, and when that lookup misses, `scrape_buff_price` returns the
failure with the Fetcher never invoked. -/
theorem emerald_lookup_not_found (p : List Char) (market : List (String × MarketEntry))
    (fetch : Nat → AttemptOutcome) (name : String)
    (hname : name.data = p ++ (' ' :: "Doppler Emerald".data))
    (hlook : lookupKV market (corrected_base name) = none) :
    phaseDetectStr name = none ∧
    corrected_base name = correctSeparator name ∧
    (∃ q', (corrected_base name).data = q' ++ (' ' :: '-' :: ' ' :: "Emerald".data)) ∧
    scrape_buff_price market fetch name = (none, []) := by
  have hrev : (name.data.map lowerAscii).reverse =
      'd' :: (tailDE ++ (p.map lowerAscii).reverse) := by
    rw [hname]
    simp only [List.map_append, List.reverse_append]
    rw [show ((' ' :: "Doppler Emerald".data).map lowerAscii).reverse =
      'd' :: tailDE from by decide]
    rw [List.cons_append]
  have hpd : phaseDetect name.data = none :=
    phaseDetect_none_of_last name.data 'd' _ hrev (by decide) (by decide) (by decide)
      (by decide)
  have hbase : base_before_correction name = name.data := by
    rw [base_before_correction, hpd]
  have hcorr : corrected_base name = correctSeparator name := by
    rw [corrected_base, correctSeparator, hbase]
  refine ⟨?_, hcorr, ?_, ?_⟩
  · rw [phaseDetectStr, hpd]
  · rw [corrected_base, hbase]
    exact subAux_emerald name.data.length name.data le_rfl ⟨p, hname⟩
  · rw [scrape_buff_price, hlook]

theorem emerald_lookup_not_found_witness :
    ("Knife Doppler Emerald" : String).data =
      "Knife".data ++ (' ' :: "Doppler Emerald".data) ∧
    lookupKV [("Knife Doppler", ({ buff := some 1, buff_phase := none } : MarketEntry))]
      (corrected_base "Knife Doppler Emerald") = none ∧
    (phaseDetectStr "Knife Doppler Emerald" = none ∧
     corrected_base "Knife Doppler Emerald" = correctSeparator "Knife Doppler Emerald" ∧
     (∃ q', (corrected_base "Knife Doppler Emerald").data =
       q' ++ (' ' :: '-' :: ' ' :: "Emerald".data)) ∧
     scrape_buff_price
       [("Knife Doppler", ({ buff := some 1, buff_phase := none } : MarketEntry))]
       (fun _ => AttemptOutcome.exn) "Knife Doppler Emerald" = (none, [])) :=
  ⟨rfl, by decide,
    emerald_lookup_not_found "Knife".data
      [("Knife Doppler", ({ buff := some 1, buff_phase := none } : MarketEntry))]
      (fun _ => AttemptOutcome.exn) "Knife Doppler Emerald" rfl (by decide)⟩
